import Mathlib

/-!
# sio records: block envelopes, the read loop and the write loop

A shallow embedding of `sio/record.go` (type `Record` with its accessors,
`Record.read` and `Record.write`), followed by theorems about it.

Conventions of the embedding:

* a Go `string` and a `bytes.Buffer` are both sequences of bytes; the unread
  part of a buffer is a `List Byte`, reading removes from the front and writing
  appends at the back;
* `uint32` values are natural numbers, reduced `% 2^32` wherever the Go code
  computes in 32 bits;
* the payload behind a block handle lives in a heap indexed by the handle's
  reference, so that two names may be bound to one payload;
* a run-time panic of the Go code is an outcome of its own (`Status.panic`);
* the `for` loop of `Record.read` takes fuel, one unit per iteration; a run
  whose fuel is spent before the loop ends has the status `running`.
-/

namespace sio

/-! ## Bytes and 32-bit words -/

abbrev Byte := UInt8

/-- A Go string: an immutable sequence of bytes. -/
abbrev Str := List Byte

/-- Truncation of a natural number to `uint32`. -/
def u32 (n : Nat) : Nat := n % 2 ^ 32

/-- Subtraction of two `uint32` values, wrapping as Go does. -/
def sub32 (a b : Nat) : Nat := (a + 2 ^ 32 - b % 2 ^ 32) % 2 ^ 32

/-- The two fixed byte orders a codec may use. -/
inductive ByteOrder where
  | bigEndian
  | littleEndian
  deriving DecidableEq, Repr

/-- The four bytes of a 32-bit word, most significant first. -/
def bytesBE (n : Nat) : List Byte :=
  [UInt8.ofNat (n / 2 ^ 24 % 256), UInt8.ofNat (n / 2 ^ 16 % 256),
   UInt8.ofNat (n / 2 ^ 8 % 256), UInt8.ofNat (n % 256)]

/-- The word denoted by four bytes, most significant first. -/
def wordBE : List Byte → Nat
  | [a, b, c, d] => a.toNat * 2 ^ 24 + b.toNat * 2 ^ 16 + c.toNat * 2 ^ 8 + d.toNat
  | _ => 0

/-- Encoding of one `uint32` field in the given byte order. -/
def put32 (o : ByteOrder) (n : Nat) : List Byte :=
  match o with
  | .bigEndian => bytesBE (u32 n)
  | .littleEndian => (bytesBE (u32 n)).reverse

/-- Decoding of one `uint32` field (four bytes) in the given byte order. -/
def get32 (o : ByteOrder) (bs : List Byte) : Nat :=
  match o with
  | .bigEndian => wordBE bs
  | .littleEndian => wordBE bs.reverse

/-! ## Declarations of the package that `record.go` uses -/

/-- Modelled from the spec: the package constants `g_mark_block`,
`g_opt_compress`, `g_opt_not_compress` and the byte order of `bread`/`bwrite`
are declared outside `record.go`. The spec fixes one byte order for the codec,
one 32-bit block-marker sentinel and one compression bit in `options`; their
values are parameters here. -/
structure Consts where
  order : ByteOrder
  g_mark_block : Nat
  g_opt_compress : Nat
  g_opt_not_compress : Nat

/-- Modelled from the spec: the constants are 32-bit values, the compression
mask is not empty and `g_opt_not_compress` is its complement in 32 bits. -/
abbrev Consts.WF (K : Consts) : Prop :=
  K.g_mark_block < 2 ^ 32 ∧ K.g_opt_compress ≠ 0 ∧
  K.g_opt_compress &&& K.g_opt_not_compress = 0 ∧
  K.g_opt_compress ||| K.g_opt_not_compress = 2 ^ 32 - 1

/-- Modelled from the spec: `g_mark_block_b`, the block-marker byte pattern
that `Record.read` scans for, is the block marker as it is encoded in an
envelope. -/
def g_mark_block_b (K : Consts) : List Byte := put32 K.order K.g_mark_block

/-- Modelled from the spec: `align4`, declared outside `record.go`; the spec
gives it as `((n + 3) / 4) * 4` on unsigned 32-bit integers. -/
def align4 (n : Nat) : Nat := u32 (u32 (u32 n + 3) / 4 * 4)

/-- Modelled from the spec: `blockHeader`, the first 8 bytes of an envelope
(`Len`, `Typ`, 4 bytes each). -/
structure blockHeader where
  Len : Nat
  Typ : Nat
  deriving DecidableEq, Repr

/-- Modelled from the spec: `blockData`, the subheader of an envelope
(`Version`, `NameLen`, 4 bytes each). -/
structure blockData where
  Version : Nat
  NameLen : Nat
  deriving DecidableEq, Repr

/-- Errors returned by `Record.read` and `Record.write`. -/
inductive Err where
  /-- The package error `ErrRecordNoBlockMarker`. -/
  | ErrRecordNoBlockMarker
  /-- The truncated-input error of `bread`. -/
  | truncated
  /-- The error `io.EOF`, returned by `io.CopyN` on a short copy. -/
  | EOF
  /-- The error `sio: read too few bytes (got=.. expected=..)`. -/
  | tooFew (got expected : Nat)
  /-- An error raised by a block's own `MarshalBinary` or `UnmarshalBinary`. -/
  | codec (code : Nat)
  /-- The error `sio: Connect needs a pointer to a block of data`. -/
  | needsPointer
  deriving DecidableEq, Repr

/-- Modelled from the spec: `bread` on a `blockHeader` reads the fixed-size
header of 8 bytes and fails when fewer bytes are available. -/
def breadHeader (o : ByteOrder) (buf : List Byte) : Except Err (blockHeader × List Byte) :=
  if buf.length < 8 then .error .truncated
  else .ok (⟨get32 o (buf.take 4), get32 o ((buf.drop 4).take 4)⟩, buf.drop 8)

/-- Modelled from the spec: `bread` on a `blockData` reads the fixed-size
subheader of 8 bytes and fails when fewer bytes are available. -/
def breadData (o : ByteOrder) (buf : List Byte) : Except Err (blockData × List Byte) :=
  if buf.length < 8 then .error .truncated
  else .ok (⟨get32 o (buf.take 4), get32 o ((buf.drop 4).take 4)⟩, buf.drop 8)

/-- Modelled from the spec: `bwrite` of a `blockHeader` appends its two fields,
4 bytes each, in the codec's byte order. -/
def bwriteHeader (o : ByteOrder) (buf : List Byte) (h : blockHeader) : List Byte :=
  buf ++ put32 o h.Len ++ put32 o h.Typ

/-- Modelled from the spec: `bwrite` of a `blockData` appends its two fields,
4 bytes each, in the codec's byte order. -/
def bwriteData (o : ByteOrder) (buf : List Byte) (d : blockData) : List Byte :=
  buf ++ put32 o d.Version ++ put32 o d.NameLen

/-! ## The standard-library operations used by `read` -/

/-- Go `bytes.Index(s, sep)`: the offset of the first occurrence of `sep` in
`s`, as an offset from `i`, or `-1`. -/
def indexFrom (sep : List Byte) : List Byte → Nat → Int
  | [], i => if sep = [] then (i : Int) else -1
  | b :: t, i => if sep.isPrefixOf (b :: t) then (i : Int) else indexFrom sep t (i + 1)

/-- Go `bytes.Index(s, sep)`. -/
def bytesIndex (s sep : List Byte) : Int := indexFrom sep s 0

/-- Go `(*bytes.Buffer).Next(n)`: `n` is capped by the length of the buffer,
then the slice `buf[off : off+n]` is taken, which panics (`none`) when `n` is
negative, and the read offset advances by `n`. -/
def bufNext (buf : List Byte) (n : Int) : Option (List Byte) :=
  let n := if n > (buf.length : Int) then (buf.length : Int) else n
  if n < 0 then none else some (buf.drop n.toNat)

/-- Go `io.CopyN(&cbuf, buf, n)` into an empty `cbuf`: the bytes copied, what
is left of `buf`, and `io.EOF` when fewer than `n` bytes were available. -/
def copyN (buf : List Byte) (n : Nat) : List Byte × List Byte × Option Err :=
  (buf.take n, buf.drop n, if buf.length < n then some .EOF else none)

/-! ## Blocks and records -/

/-- A payload heap: the values behind the payload pointers. -/
abbrev Heap (σ : Type) := Nat → σ

/-- A handle satisfying the `Block` interface. `marshal` is what
`MarshalBinary` writes into the scratch buffer for a payload value (or the
error it returns); `unmarshal` is `UnmarshalBinary`: from the payload value
and the buffer it is handed, the error it returns (if any), the new payload
value and what it leaves in the buffer. -/
structure Block (σ : Type) where
  name : Str
  version : Nat
  ref : Nat
  marshal : σ → Except Err (List Byte)
  unmarshal : σ → List Byte → Option Err × σ × List Byte

/-- The type `Record`. The map `blocks` is an association list; a name is
looked up from the front. -/
structure Record (σ : Type) where
  name : Str
  unpack : Bool
  options : Nat
  blocks : List (Str × Block σ)

/-- `Record.Name`. -/
def Record.Name {σ : Type} (rec : Record σ) : Str := rec.name

/-- `Record.Unpack`. -/
def Record.Unpack {σ : Type} (rec : Record σ) : Bool := rec.unpack

/-- `Record.SetUnpack`. -/
def Record.SetUnpack {σ : Type} (rec : Record σ) (unpack : Bool) : Record σ :=
  { rec with unpack := unpack }

/-- `Record.Compress`. -/
def Record.Compress {σ : Type} (K : Consts) (rec : Record σ) : Bool :=
  rec.options &&& K.g_opt_compress != 0

/-- `Record.SetCompress`: clear the flag, then set it when `compress` holds. -/
def Record.SetCompress {σ : Type} (K : Consts) (rec : Record σ) (compress : Bool) : Record σ :=
  let rec1 := { rec with options := rec.options &&& K.g_opt_not_compress }
  if compress then { rec1 with options := rec1.options ||| K.g_opt_compress } else rec1

/-- `Record.Options`. -/
def Record.Options {σ : Type} (rec : Record σ) : Nat := rec.options

/-- The map access `rec.blocks[name]`. -/
def Record.lookup {σ : Type} (rec : Record σ) (name : Str) : Option (Block σ) :=
  rec.blocks.lookup name

/-! ## `Record.read` -/

/-- How a call of `Record.read` stands: it returned `nil`, it returned an
error, it panicked, or (`running`) its loop has not ended within the fuel. -/
inductive Status where
  | ok
  | error (e : Err)
  | panic
  | running
  deriving DecidableEq, Repr

/-- What `Record.read` did, in order: a map access `rec.blocks[name]`, made
with `rest` left in the buffer, and a call of `UnmarshalBinary` on the block
bound to `name`, handed the buffer contents `input`. -/
inductive Event where
  | lookup (name : Str) (rest : List Byte)
  | unmarshal (name : Str) (input : List Byte)
  deriving DecidableEq, Repr

/-- The state in which `Record.read` ended (or in which its fuel ran out): the
buffer, the payloads and the events so far. -/
structure ReadResult (σ : Type) where
  status : Status
  buf : List Byte
  heap : Heap σ
  trace : List Event

/-- The loop of `Record.read`, one unit of fuel per iteration. The error
variable returned after the loop is the one of the function scope, which is
`nil` whenever the loop is left by its condition (the `err` assigned by
`io.CopyN` and by `UnmarshalBinary` is a new variable of the loop body). -/
def readLoop {σ : Type} (K : Consts) (rec : Record σ) :
    Nat → Heap σ → List Byte → List Event → ReadResult σ
  | 0, h, buf, tr => if buf.length > 0 then ⟨.running, buf, h, tr⟩ else ⟨.ok, buf, h, tr⟩
  | fuel + 1, h, buf, tr =>
    if buf.length > 0 then
      match breadHeader K.order buf with
      | .error e => ⟨.error e, [], h, tr⟩
      | .ok (hdr, buf1) =>
        if hdr.Typ ≠ K.g_mark_block then
          ⟨.error .ErrRecordNoBlockMarker, buf1, h, tr⟩
        else
          match breadData K.order buf1 with
          | .error e => ⟨.error e, [], h, tr⟩
          | .ok (data, buf2) =>
            let nlen := align4 data.NameLen
            match copyN buf2 nlen with
            | (_, buf3, some e) => ⟨.error e, buf3, h, tr⟩
            | (cbuf, buf3, none) =>
              if cbuf.length ≠ nlen then
                ⟨.error (.tooFew cbuf.length nlen), buf3, h, tr⟩
              else if cbuf.length < data.NameLen then
                -- the slice `cbuf.Bytes()[:data.NameLen]` reaches beyond the bytes copied
                ⟨.panic, buf3, h, tr⟩
              else
                let name := cbuf.take data.NameLen
                let tr1 := tr ++ [Event.lookup name buf3]
                match rec.lookup name with
                | none =>
                  -- drain the whole buffer
                  match bufNext buf3 buf3.length with
                  | none => ⟨.panic, buf3, h, tr1⟩
                  | some buf4 => readLoop K rec fuel h buf4 tr1
                | some blk =>
                  let tr2 := tr1 ++ [Event.unmarshal name buf3]
                  match blk.unmarshal (h blk.ref) buf3 with
                  | (some e, s, buf4) =>
                    ⟨.error e, buf4, Function.update h blk.ref s, tr2⟩
                  | (none, s, buf4) =>
                    let h1 := Function.update h blk.ref s
                    if buf4.length > 0 then
                      let idx := bytesIndex buf4 (g_mark_block_b K)
                      if idx > 0 then
                        match bufNext buf4 (idx - 8) with
                        | none => ⟨.panic, buf4, h1, tr2⟩
                        | some buf5 => readLoop K rec fuel h1 buf5 tr2
                      else
                        match bufNext buf4 buf4.length with
                        | none => ⟨.panic, buf4, h1, tr2⟩
                        | some buf5 => readLoop K rec fuel h1 buf5 tr2
                    else readLoop K rec fuel h1 buf4 tr2
    else ⟨.ok, buf, h, tr⟩

/-- `Record.read`, with the fuel of its loop. -/
def Record.read {σ : Type} (K : Consts) (rec : Record σ) (fuel : Nat) (h : Heap σ)
    (buf : List Byte) : ReadResult σ :=
  readLoop K rec fuel h buf []

/-- The loop of `Record.read` once more, as a transformer of its receiver:
the state carries the record `*rec` next to the payloads, the buffer and the
events. The body reads `rec.blocks` (line 136); it has no assignment to a
field of `rec` and no write to the map, so every path hands the record on as
it found it. -/
def readLoopRecv {σ : Type} (K : Consts) :
    Nat → Record σ → Heap σ → List Byte → List Event → Record σ × ReadResult σ
  | 0, rec, h, buf, tr =>
    if buf.length > 0 then (rec, ⟨.running, buf, h, tr⟩) else (rec, ⟨.ok, buf, h, tr⟩)
  | fuel + 1, rec, h, buf, tr =>
    if buf.length > 0 then
      match breadHeader K.order buf with
      | .error e => (rec, ⟨.error e, [], h, tr⟩)
      | .ok (hdr, buf1) =>
        if hdr.Typ ≠ K.g_mark_block then
          (rec, ⟨.error .ErrRecordNoBlockMarker, buf1, h, tr⟩)
        else
          match breadData K.order buf1 with
          | .error e => (rec, ⟨.error e, [], h, tr⟩)
          | .ok (data, buf2) =>
            let nlen := align4 data.NameLen
            match copyN buf2 nlen with
            | (_, buf3, some e) => (rec, ⟨.error e, buf3, h, tr⟩)
            | (cbuf, buf3, none) =>
              if cbuf.length ≠ nlen then
                (rec, ⟨.error (.tooFew cbuf.length nlen), buf3, h, tr⟩)
              else if cbuf.length < data.NameLen then
                (rec, ⟨.panic, buf3, h, tr⟩)
              else
                let name := cbuf.take data.NameLen
                let tr1 := tr ++ [Event.lookup name buf3]
                match rec.lookup name with
                | none =>
                  match bufNext buf3 buf3.length with
                  | none => (rec, ⟨.panic, buf3, h, tr1⟩)
                  | some buf4 => readLoopRecv K fuel rec h buf4 tr1
                | some blk =>
                  let tr2 := tr1 ++ [Event.unmarshal name buf3]
                  match blk.unmarshal (h blk.ref) buf3 with
                  | (some e, s, buf4) =>
                    (rec, ⟨.error e, buf4, Function.update h blk.ref s, tr2⟩)
                  | (none, s, buf4) =>
                    let h1 := Function.update h blk.ref s
                    if buf4.length > 0 then
                      let idx := bytesIndex buf4 (g_mark_block_b K)
                      if idx > 0 then
                        match bufNext buf4 (idx - 8) with
                        | none => (rec, ⟨.panic, buf4, h1, tr2⟩)
                        | some buf5 => readLoopRecv K fuel rec h1 buf5 tr2
                      else
                        match bufNext buf4 buf4.length with
                        | none => (rec, ⟨.panic, buf4, h1, tr2⟩)
                        | some buf5 => readLoopRecv K fuel rec h1 buf5 tr2
                    else readLoopRecv K fuel rec h1 buf4 tr2
    else (rec, ⟨.ok, buf, h, tr⟩)

/-- `Record.read` with its receiver: the record after the call and the state
in which the call ended. -/
def Record.readRecv {σ : Type} (K : Consts) (rec : Record σ) (fuel : Nat) (h : Heap σ)
    (buf : List Byte) : Record σ × ReadResult σ :=
  readLoopRecv K fuel rec h buf []

/-! ## `Record.write` -/

/-- The state in which `Record.write` ended: the error returned (if any) and
the destination buffer. -/
structure WriteResult where
  err : Option Err
  buf : List Byte
  deriving DecidableEq, Repr

/-- The bytes one iteration of the loop of `Record.write` appends for the
block `blk` under the key `k`, once `MarshalBinary` has produced `b`. -/
def writeEnvelope {σ : Type} (K : Consts) (k : Str) (blk : Block σ) (b : List Byte)
    (buf : List Byte) : List Byte :=
  let bdata : blockData := ⟨u32 blk.version, u32 k.length⟩
  let bhdr : blockHeader :=
    ⟨u32 (u32 (u32 (8 + 8) + align4 bdata.NameLen) + u32 b.length), K.g_mark_block⟩
  let buf := bwriteHeader K.order buf bhdr
  let buf := bwriteData K.order buf bdata
  let buf := buf ++ k
  let padlen := sub32 (align4 bdata.NameLen) bdata.NameLen
  let buf := if padlen > 0 then buf ++ List.replicate padlen (0 : Byte) else buf
  buf ++ b

/-- The loop of `Record.write` over the blocks in the order `range` yields
them. -/
def writeLoop {σ : Type} (K : Consts) (h : Heap σ) :
    List (Str × Block σ) → List Byte → WriteResult
  | [], buf => ⟨none, buf⟩
  | (k, blk) :: rest, buf =>
    match blk.marshal (h blk.ref) with
    | .error e => ⟨some e, buf⟩
    | .ok b => writeLoop K h rest (writeEnvelope K k blk b buf)

/-- `Record.write`; `order` is the sequence in which `range rec.blocks` yields
the entries of the map, a permutation of `rec.blocks`. -/
def Record.write {σ : Type} (K : Consts) (_rec : Record σ) (order : List (Str × Block σ))
    (h : Heap σ) (buf : List Byte) : WriteResult :=
  writeLoop K h order buf

/-! ## `Record.Connect` -/

/-- Modelled from the spec: the interface `BinaryCodec`, declared outside
`record.go`: the raw capability, marshal and unmarshal without a version, of a
value whose payload lives at `ref`. -/
structure BinaryCodec (σ : Type) where
  ref : Nat
  marshal : σ → Except Err (List Byte)
  unmarshal : σ → List Byte → Option Err × σ × List Byte

/-- A value passed to `Connect` as `ptr interface{}`, the nil interface
included, by what the function asks of it: the type assertions `ptr.(Block)`
and `ptr.(BinaryCodec)`, whether `reflect.TypeOf(ptr)` is nil (`rtNil`, the
case of the nil interface, which also fails both assertions),
`reflect.TypeOf(ptr).Kind() == reflect.Ptr` and `reflect.TypeOf(ptr).Name()`,
and, for a pointer, the value pointed to (at `ref`) with the structural
encoding that a `blockImpl` applies to it. -/
structure Handle (σ : Type) where
  asBlock : Option (Block σ)
  asCodec : Option (BinaryCodec σ)
  rtNil : Bool
  kindPtr : Bool
  typeName : Str
  ref : Nat
  structMarshal : σ → Except Err (List Byte)
  structUnmarshal : σ → List Byte → Option Err × σ × List Byte

/-- Modelled from the spec: the adapter `mBlockImpl{blk, version, name}`,
whose methods are declared outside `record.go`: a block with the given
version and name that marshals and unmarshals through `blk`. -/
def mBlockImpl {σ : Type} (blk : BinaryCodec σ) (version : Nat) (name : Str) : Block σ :=
  { name := name, version := version, ref := blk.ref,
    marshal := blk.marshal, unmarshal := blk.unmarshal }

/-- Modelled from the spec: the adapter `blockImpl{rt, rv, version, name}`,
whose methods are declared outside `record.go`: a block with the given
version and name that applies the structural encoding to the value pointed
to. -/
def blockImpl {σ : Type} (ptr : Handle σ) (version : Nat) (name : Str) : Block σ :=
  { name := name, version := version, ref := ptr.ref,
    marshal := ptr.structMarshal, unmarshal := ptr.structUnmarshal }

/-- How a call of `Record.Connect` fails: it returns an error, or it
panics. -/
inductive Failure where
  | error (e : Err)
  | panic
  deriving DecidableEq, Repr

/-- The type switch of `Record.Connect`: the block to register, the error
returned, or the panic of `rt.Kind()` (line 88), a method call on the nil
`reflect.Type` that `reflect.TypeOf` gives for the nil interface. -/
def connectBlock {σ : Type} (ptr : Handle σ) : Except Failure (Block σ) :=
  match ptr.asBlock with
  | some b => .ok b
  | none =>
    match ptr.asCodec with
    | some c => .ok (mBlockImpl c 0 ptr.typeName)
    | none =>
      if ptr.rtNil then .error .panic
      else if ptr.kindPtr ≠ true then .error (.error .needsPointer)
      else .ok (blockImpl ptr 0 ptr.typeName)

/-- The map assignment `m[k] = v`: the binding of `k` is replaced where there
is one, added otherwise. -/
def mapSet {σ : Type} : List (Str × Block σ) → Str → Block σ → List (Str × Block σ)
  | [], k, v => [(k, v)]
  | (k1, v1) :: t, k, v => if k1 = k then (k, v) :: t else (k1, v1) :: mapSet t k v

/-- `Record.Connect`: how the call failed (`none` when it returned `nil`)
and the record after the call. The test of `dup` has an empty body. -/
def Record.Connect {σ : Type} (rec : Record σ) (name : Str) (ptr : Handle σ) :
    Option Failure × Record σ :=
  match connectBlock ptr with
  | .error e => (some e, rec)
  | .ok block => (none, { rec with blocks := mapSet rec.blocks name block })

/-! ## `fads.RunHeader` and its structural encoding -/

/-- The type `fads.RunHeader`: three `int64` fields. -/
structure RunHeader where
  RunNbr : Int
  EvtNbr : Int
  Trigger : Int
  deriving DecidableEq, Repr

/-- The eight bytes of a 64-bit word, most significant first. -/
def bytes64BE (n : Nat) : List Byte :=
  [UInt8.ofNat (n / 2 ^ 56 % 256), UInt8.ofNat (n / 2 ^ 48 % 256),
   UInt8.ofNat (n / 2 ^ 40 % 256), UInt8.ofNat (n / 2 ^ 32 % 256),
   UInt8.ofNat (n / 2 ^ 24 % 256), UInt8.ofNat (n / 2 ^ 16 % 256),
   UInt8.ofNat (n / 2 ^ 8 % 256), UInt8.ofNat (n % 256)]

/-- The word denoted by eight bytes, most significant first. -/
def word64BE : List Byte → Nat
  | [a, b, c, d, e, f, g, h] =>
    a.toNat * 2 ^ 56 + b.toNat * 2 ^ 48 + c.toNat * 2 ^ 40 + d.toNat * 2 ^ 32 +
    e.toNat * 2 ^ 24 + f.toNat * 2 ^ 16 + g.toNat * 2 ^ 8 + h.toNat
  | _ => 0

/-- Encoding of one `int64` field (two's complement) in the given byte order. -/
def put64 (o : ByteOrder) (x : Int) : List Byte :=
  match o with
  | .bigEndian => bytes64BE (x % 2 ^ 64).toNat
  | .littleEndian => (bytes64BE (x % 2 ^ 64).toNat).reverse

/-- Decoding of one `int64` field (eight bytes) in the given byte order. -/
def get64 (o : ByteOrder) (bs : List Byte) : Int :=
  let n : Nat := match o with
    | .bigEndian => word64BE bs
    | .littleEndian => word64BE bs.reverse
  if n < 2 ^ 63 then (n : Int) else (n : Int) - 2 ^ 64

/-- Modelled from the spec: the structural encoding of a `RunHeader`, the
fields in declaration order, 8 bytes each, in the byte order of the codec. -/
def RunHeader.marshal (o : ByteOrder) (r : RunHeader) : Except Err (List Byte) :=
  .ok (put64 o r.RunNbr ++ put64 o r.EvtNbr ++ put64 o r.Trigger)

/-- Modelled from the spec: the structural decoding of a `RunHeader`: 24 bytes
are read, 8 for each field in declaration order; fewer bytes are an error. -/
def RunHeader.unmarshal (o : ByteOrder) (r : RunHeader) (buf : List Byte) :
    Option Err × RunHeader × List Byte :=
  if buf.length < 24 then (some .truncated, r, [])
  else (none, ⟨get64 o (buf.take 8), get64 o ((buf.drop 8).take 8),
    get64 o ((buf.drop 16).take 8)⟩, buf.drop 24)

/-- The handle `&RunHeader{..}` for the payload at reference `ref`: a pointer
that satisfies neither `Block` nor `BinaryCodec`; the name of a pointer type
is empty. -/
def runHeaderPtr (o : ByteOrder) (ref : Nat) : Handle RunHeader :=
  { asBlock := none, asCodec := none, rtNil := false, kindPtr := true, typeName := [],
    ref := ref,
    structMarshal := RunHeader.marshal o, structUnmarshal := RunHeader.unmarshal o }

/-- The name `"evt"`. -/
def evtName : Str := [101, 118, 116]

/-- The name `"header"`. -/
def headerName : Str := [104, 101, 97, 100, 101, 114]

/-! ## Concrete instances, used to evaluate the code -/

/-- One choice of the package constants: big-endian fields, the marker
`0xdeadbeef`, the compression bit `1`. -/
def hepConsts : Consts := ⟨.bigEndian, 0xdeadbeef, 1, 0xfffffffe⟩

/-- A block whose payload is one byte: `MarshalBinary` writes that byte,
`UnmarshalBinary` reads one byte and fails on an empty buffer. -/
def byteBlock (nm : Str) (r : Nat) : Block Byte :=
  { name := nm, version := 0, ref := r,
    marshal := fun s => .ok [s],
    unmarshal := fun s buf =>
      match buf with
      | [] => (some .EOF, s, [])
      | b :: t => (none, b, t) }

/-- The block bound to the name `"a"`, payload at reference 0. -/
def blkA : Block Byte := byteBlock [97] 0

/-- The block bound to the name `"b"`, payload at reference 1. -/
def blkB : Block Byte := byteBlock [98] 1

/-- The block bound to the name `"c"`, payload at reference 2. -/
def blkC : Block Byte := byteBlock [99] 2

/-- A record with the single block `"a"`. -/
def recA : Record Byte := ⟨[101], false, 0, [([97], blkA)]⟩

/-- A record with the blocks `"a"` and `"b"`. -/
def recAB : Record Byte := ⟨[101], false, 0, [([97], blkA), ([98], blkB)]⟩

/-- A record with the blocks `"a"` and `"c"`. -/
def recAC : Record Byte := ⟨[101], false, 0, [([97], blkA), ([99], blkC)]⟩

/-- Payloads to write: the payload at reference `r` is the byte `7 + r`. -/
def heapW : Heap Byte := fun r => UInt8.ofNat (7 + r)

/-- Fresh payloads to read into: every payload is the byte `0`. -/
def heapZ : Heap Byte := fun _ => 0

/-- A value of a type `T` that satisfies `BinaryCodec` but not `Block`: it
marshals to its one byte. -/
def codecHandle : Handle Byte :=
  { asBlock := none
    asCodec := some ⟨0, (byteBlock [] 0).marshal, (byteBlock [] 0).unmarshal⟩
    rtNil := false, kindPtr := true, typeName := [84], ref := 0
    structMarshal := (byteBlock [] 0).marshal, structUnmarshal := (byteBlock [] 0).unmarshal }

/-- A value that is no pointer and satisfies neither `Block` nor
`BinaryCodec`. -/
def plainHandle : Handle Byte :=
  { asBlock := none, asCodec := none, rtNil := false, kindPtr := false, typeName := [84]
    ref := 0
    structMarshal := (byteBlock [] 0).marshal, structUnmarshal := (byteBlock [] 0).unmarshal }

/-- The nil interface value: it satisfies neither `Block` nor `BinaryCodec`,
and `reflect.TypeOf` gives the nil `reflect.Type` for it. -/
def nilHandle : Handle Byte :=
  { asBlock := none, asCodec := none, rtNil := true, kindPtr := false, typeName := []
    ref := 0
    structMarshal := (byteBlock [] 0).marshal, structUnmarshal := (byteBlock [] 0).unmarshal }

/-- A handle that satisfies the full `Block` contract: the block `blkB`. -/
def blockHandle : Handle Byte :=
  { asBlock := some blkB
    asCodec := some ⟨blkB.ref, blkB.marshal, blkB.unmarshal⟩
    rtNil := false, kindPtr := true, typeName := [], ref := blkB.ref
    structMarshal := blkB.marshal, structUnmarshal := blkB.unmarshal }

/-- The payloads of the example: a `RunHeader {7, 42, 1}` at every reference. -/
def heapRun : Heap RunHeader := fun _ => ⟨7, 42, 1⟩

/-- Zeroed `RunHeader` payloads. -/
def heapRunZ : Heap RunHeader := fun _ => ⟨0, 0, 0⟩

/-- A block whose `MarshalBinary` fails. -/
def blkFail : Block Byte :=
  { name := [102], version := 0, ref := 3,
    marshal := fun _ => .error (.codec 1),
    unmarshal := fun s buf => (some (.codec 1), s, buf) }

/-- The record named `"evt"`, no block connected. -/
def evtRec0 : Record RunHeader := ⟨evtName, false, 0, []⟩
/-- The record `"evt"` after `Connect("header", &RunHeader{..})`, the payload at
reference 0. -/
def evtRec (o : ByteOrder) : Record RunHeader :=
  (evtRec0.Connect headerName (runHeaderPtr o 0)).2


/-! ## Basic facts: words and bytes -/

theorem toNat_ofNat_mod (x : Nat) : (UInt8.ofNat (x % 256)).toNat = x % 256 := by
  simp [UInt8.toNat, UInt8.ofNat, Fin.ofNat]

theorem u32_lt (n : Nat) : u32 n < 2 ^ 32 := Nat.mod_lt _ (by norm_num)

theorem u32_of_lt {n : Nat} (h : n < 2 ^ 32) : u32 n = n := Nat.mod_eq_of_lt h

theorem put32_length (o : ByteOrder) (n : Nat) : (put32 o n).length = 4 := by
  cases o <;> simp [put32, bytesBE]

theorem wordBE_bytesBE (n : Nat) (h : n < 2 ^ 32) : wordBE (bytesBE n) = n := by
  simp only [bytesBE, wordBE, toNat_ofNat_mod]
  omega

theorem get32_put32 (o : ByteOrder) (n : Nat) : get32 o (put32 o n) = u32 n := by
  cases o <;> simp [put32, get32, wordBE_bytesBE _ (u32_lt n)]

theorem take_put32_append (o : ByteOrder) (n : Nat) (l : List Byte) :
    (put32 o n ++ l).take 4 = put32 o n :=
  List.take_left' (put32_length o n)

theorem drop_put32_append (o : ByteOrder) (n : Nat) (l : List Byte) :
    (put32 o n ++ l).drop 4 = l :=
  List.drop_left' (put32_length o n)

/-! ## The compression flag -/

theorem land_lor_land_cancel (o c nc : Nat) (hd : c &&& nc = 0) :
    ((o &&& nc) ||| c) &&& nc = o &&& nc := by
  apply Nat.eq_of_testBit_eq
  intro i
  have hi : (c &&& nc).testBit i = false := by rw [hd]; simp
  rw [Nat.testBit_and] at hi
  simp only [Nat.testBit_and, Nat.testBit_or]
  cases ho : o.testBit i <;> cases hc : c.testBit i <;> cases hn : nc.testBit i <;> simp_all

theorem land_not_eq_self_iff (o c nc : Nat) (ho : o < 2 ^ 32) (hd : c &&& nc = 0)
    (hu : c ||| nc = 2 ^ 32 - 1) : o &&& nc = o ↔ o &&& c = 0 := by
  have hdi : ∀ i, (c.testBit i && nc.testBit i) = false := by
    intro i
    have : (c &&& nc).testBit i = false := by rw [hd]; simp
    rwa [Nat.testBit_and] at this
  have hui : ∀ i, i < 32 → (c.testBit i || nc.testBit i) = true := by
    intro i hi
    have : (c ||| nc).testBit i = true := by
      rw [hu, Nat.testBit_two_pow_sub_one]; simpa using hi
    rwa [Nat.testBit_or] at this
  have hoi : ∀ i, 32 ≤ i → o.testBit i = false := by
    intro i hi
    apply Nat.testBit_lt_two_pow
    calc o < 2 ^ 32 := ho
      _ ≤ 2 ^ i := Nat.pow_le_pow_right (by norm_num) hi
  constructor
  · intro h
    apply Nat.eq_of_testBit_eq
    intro i
    have hb : (o &&& nc).testBit i = o.testBit i := by rw [h]
    rw [Nat.testBit_and] at hb
    have := hdi i
    simp only [Nat.testBit_and, Nat.zero_testBit]
    cases ho1 : o.testBit i <;> cases hc : c.testBit i <;> cases hn : nc.testBit i <;> simp_all
  · intro h
    apply Nat.eq_of_testBit_eq
    intro i
    have hb : (o &&& c).testBit i = false := by rw [h]; simp
    rw [Nat.testBit_and] at hb
    rw [Nat.testBit_and]
    by_cases hi : i < 32
    · have := hui i hi
      cases ho1 : o.testBit i <;> cases hc : c.testBit i <;> cases hn : nc.testBit i <;> simp_all
    · rw [hoi i (by omega)]; simp

/-- C10 (as stated, refuted): on a record whose compression bit is set,
`SetCompress(true)` followed by `SetCompress(false)` does not give `options`
back: from `options = 1` the two calls leave `options = 0`. -/
theorem C10_setCompress_true_false_not_restored :
    (((⟨[], false, 1, []⟩ : Record Byte).SetCompress hepConsts true).SetCompress
      hepConsts false).options ≠ (⟨[], false, 1, []⟩ : Record Byte).options := by
  decide

/-- C10 (amended): `SetCompress(true)` followed by `SetCompress(false)` leaves
`options` equal to its prior value with the compression bit cleared, every
other field of the record untouched; `options` is its prior value again
exactly when `Compress()` was false before the two calls. -/
theorem C10_setCompress_true_false {σ : Type} (K : Consts) (rec : Record σ)
    (hK : K.WF) (ho : rec.options < 2 ^ 32) :
    ((rec.SetCompress K true).SetCompress K false) =
        { rec with options := rec.options &&& K.g_opt_not_compress } ∧
    (((rec.SetCompress K true).SetCompress K false).options = rec.options ↔
        rec.Compress K = false) := by
  obtain ⟨_, _, hd, hu⟩ := hK
  have h1 : ((rec.SetCompress K true).SetCompress K false).options =
      rec.options &&& K.g_opt_not_compress := by
    simp [Record.SetCompress, land_lor_land_cancel _ _ _ hd]
  refine ⟨?_, ?_⟩
  · simp [Record.SetCompress, land_lor_land_cancel _ _ _ hd]
  · rw [h1, land_not_eq_self_iff _ _ _ ho hd hu]
    simp [Record.Compress]

/-- Witness of C10 (amended): the constants `hepConsts` and `options = 6`. -/
theorem C10_setCompress_true_false_witness :
    (((⟨[], false, 6, []⟩ : Record Byte).SetCompress hepConsts true).SetCompress
        hepConsts false) =
      { (⟨[], false, 6, []⟩ : Record Byte) with
        options := (⟨[], false, 6, []⟩ : Record Byte).options &&&
          hepConsts.g_opt_not_compress } ∧
    ((((⟨[], false, 6, []⟩ : Record Byte).SetCompress hepConsts true).SetCompress
        hepConsts false).options = (⟨[], false, 6, []⟩ : Record Byte).options ↔
      (⟨[], false, 6, []⟩ : Record Byte).Compress hepConsts = false) :=
  C10_setCompress_true_false hepConsts ⟨[], false, 6, []⟩ (by decide) (by decide)

/-! ## The write loop -/

theorem put32_congr (o : ByteOrder) {a b : Nat} (h : u32 a = u32 b) : put32 o a = put32 o b := by
  cases o <;> simp [put32, h]

theorem put32_u32 (o : ByteOrder) (n : Nat) : put32 o (u32 n) = put32 o n :=
  put32_congr o (by simp [u32])

theorem align4_of_lt {n : Nat} (h : n + 3 < 2 ^ 32) : align4 n = (n + 3) / 4 * 4 := by
  unfold align4 u32
  omega

theorem le_align4 {n : Nat} (h : n + 3 < 2 ^ 32) : n ≤ align4 n := by
  rw [align4_of_lt h]; omega

theorem sub32_of_le {a b : Nat} (hb : b ≤ a) (ha : a < 2 ^ 32) : sub32 a b = a - b := by
  unfold sub32
  omega

theorem headerLen_eq (o : ByteOrder) (a p : Nat) :
    put32 o (u32 (u32 16 + a) + u32 p) = put32 o (16 + a + p) := by
  apply put32_congr
  unfold u32
  omega

/-- The bytes one iteration of the write loop appends, in the order of the
statements of the loop body. -/
theorem writeEnvelope_eq {σ : Type} (K : Consts) (k : Str) (blk : Block σ) (b dst : List Byte) :
    writeEnvelope K k blk b dst =
      dst ++ (put32 K.order (16 + align4 (u32 k.length) + b.length) ++
        put32 K.order K.g_mark_block ++ put32 K.order blk.version ++
        put32 K.order k.length ++ k ++
        List.replicate (sub32 (align4 (u32 k.length)) (u32 k.length)) (0 : Byte) ++ b) := by
  simp only [writeEnvelope, bwriteHeader, bwriteData, put32_u32]
  split
  · simp [List.append_assoc, headerLen_eq]
  · rename_i h
    have : sub32 (align4 (u32 k.length)) (u32 k.length) = 0 := by omega
    simp [this, List.append_assoc, headerLen_eq]

/-- The padding the writer computes, for a name shorter than `2^32 - 3`
bytes, in plain arithmetic. -/
theorem padlen_of_lt {n : Nat} (h : n + 3 < 2 ^ 32) :
    sub32 (align4 (u32 n)) (u32 n) = (n + 3) / 4 * 4 - n := by
  have hn : u32 n = n := u32_of_lt (by omega)
  rw [hn, align4_of_lt h, sub32_of_le (by omega) (by omega)]

/-- C4: for a record with exactly one connected block (name `k`, version `v`,
marshaled payload `p`), `Record.write` returns no error and appends to the
destination exactly: the 4-byte `Len`, the 4-byte block marker, the 4-byte
version, the 4-byte name length, the bytes of `k`, the `align4(len k) - len k`
zero bytes of padding (in the 32-bit arithmetic of the code), then `p`; every
32-bit field in the one byte order of the codec. -/
theorem C4_write_single_block {σ : Type} (K : Consts) (rec : Record σ)
    (order : List (Str × Block σ)) (h : Heap σ) (k : Str) (blk : Block σ) (p dst : List Byte)
    (hblocks : rec.blocks = [(k, blk)]) (horder : order.Perm rec.blocks)
    (hm : blk.marshal (h blk.ref) = .ok p) :
    rec.write K order h dst =
      ⟨none, dst ++ (put32 K.order (8 + 8 + align4 (u32 k.length) + p.length) ++
        put32 K.order K.g_mark_block ++ put32 K.order blk.version ++
        put32 K.order k.length ++ k ++
        List.replicate (sub32 (align4 (u32 k.length)) (u32 k.length)) (0 : Byte) ++ p)⟩ := by
  rw [hblocks] at horder
  have ho : order = [(k, blk)] := List.perm_singleton.mp horder
  subst ho
  simp only [Record.write, writeLoop, hm, writeEnvelope_eq]

/-- Witness of C4: the record `recA`, whose one block `"a"` holds the byte `7`. -/
theorem C4_write_single_block_witness :
    recA.write hepConsts [([97], blkA)] heapW [] =
      ⟨none, [] ++ (put32 hepConsts.order
          (8 + 8 + align4 (u32 ([97] : Str).length) + ([7] : List Byte).length) ++
        put32 hepConsts.order hepConsts.g_mark_block ++ put32 hepConsts.order blkA.version ++
        put32 hepConsts.order ([97] : Str).length ++ [97] ++
        List.replicate (sub32 (align4 (u32 ([97] : Str).length)) (u32 ([97] : Str).length))
          (0 : Byte) ++ [7])⟩ :=
  C4_write_single_block hepConsts recA [([97], blkA)] heapW [97] blkA [7] [] rfl
    (List.Perm.refl _) (by rfl)

/-! ## The read loop: framing errors -/

/-- C5: on a buffer of at least 8 bytes whose second 32-bit word does not
decode to the block marker, `Record.read` returns `ErrRecordNoBlockMarker`
and has called `UnmarshalBinary` on no block (its trace is empty, the payloads
are untouched). -/
theorem C5_read_missing_block_marker {σ : Type} (K : Consts) (rec : Record σ) (fuel : Nat)
    (h : Heap σ) (buf : List Byte) (hlen : 8 ≤ buf.length)
    (htyp : get32 K.order ((buf.drop 4).take 4) ≠ K.g_mark_block) :
    rec.read K (fuel + 1) h buf = ⟨.error .ErrRecordNoBlockMarker, buf.drop 8, h, []⟩ := by
  have h0 : buf.length > 0 := by omega
  have h8 : ¬ buf.length < 8 := by omega
  simp [Record.read, readLoop, breadHeader, h0, h8, htyp]

/-- Witness of C5: eight bytes whose second word is `1`. -/
theorem C5_read_missing_block_marker_witness :
    recA.read hepConsts (0 + 1) heapZ [0, 0, 0, 21, 0, 0, 0, 1] =
      ⟨.error .ErrRecordNoBlockMarker, ([0, 0, 0, 21, 0, 0, 0, 1] : List Byte).drop 8,
        heapZ, []⟩ :=
  C5_read_missing_block_marker hepConsts recA 0 heapZ [0, 0, 0, 21, 0, 0, 0, 1]
    (by decide) (by decide)

/-! ## The read loop: one iteration -/

theorem bufNext_length (b : List Byte) : bufNext b (b.length : Int) = some [] := by
  simp [bufNext]

theorem bufNext_neg (b : List Byte) (n : Int) (hn : n < 0) : bufNext b n = none := by
  have h1 : ¬ n > (b.length : Int) := by omega
  simp [bufNext, h1, hn]

theorem readLoop_nil {σ : Type} (K : Consts) (rec : Record σ) (fuel : Nat) (h : Heap σ)
    (tr : List Event) : readLoop K rec fuel h [] tr = ⟨.ok, [], h, tr⟩ := by
  cases fuel <;> simp [readLoop]

theorem readLoop_trace_extends {σ : Type} (K : Consts) (rec : Record σ) :
    ∀ (fuel : Nat) (h : Heap σ) (buf : List Byte) (tr : List Event),
      tr <+: (readLoop K rec fuel h buf tr).trace := by
  intro fuel
  induction fuel with
  | zero =>
    intro h buf tr
    unfold readLoop
    split <;> simp
  | succ n ih =>
    intro h buf tr
    unfold readLoop
    simp only [copyN, bufNext_length]
    repeat' split
    all_goals first
      | exact List.prefix_refl _
      | exact List.IsPrefix.trans (by simp) (ih _ _ _)
      | simp

/-- The header cut short. -/
theorem read_truncated_header {σ : Type} (K : Consts) (rec : Record σ) (fuel : Nat)
    (h : Heap σ) (buf : List Byte) (h0 : 0 < buf.length) (h8 : buf.length < 8) :
    rec.read K (fuel + 1) h buf = ⟨.error .truncated, [], h, []⟩ := by
  simp [Record.read, readLoop, breadHeader, h0, h8]

theorem read_truncated_subheader {σ : Type} (K : Consts) (rec : Record σ) (fuel : Nat)
    (h : Heap σ) (buf : List Byte) (h8 : 8 ≤ buf.length) (h16 : buf.length < 16)
    (htyp : get32 K.order ((buf.drop 4).take 4) = K.g_mark_block) :
    rec.read K (fuel + 1) h buf = ⟨.error .truncated, [], h, []⟩ := by
  have h0 : buf.length > 0 := by omega
  have h8' : ¬ buf.length < 8 := by omega
  have h16' : (buf.drop 8).length < 8 := by rw [List.length_drop]; omega
  simp [-List.length_drop, Record.read, readLoop, breadHeader, breadData, h0, h8', h16', htyp]

theorem read_truncated_name {σ : Type} (K : Consts) (rec : Record σ) (fuel : Nat)
    (h : Heap σ) (buf : List Byte) (hlen : 16 ≤ buf.length)
    (htyp : get32 K.order ((buf.drop 4).take 4) = K.g_mark_block)
    (hshort : buf.length - 16 < align4 (get32 K.order ((buf.drop 12).take 4))) :
    rec.read K (fuel + 1) h buf = ⟨.error .EOF, [], h, []⟩ := by
  have h0 : buf.length > 0 := by omega
  have h8 : ¬ buf.length < 8 := by omega
  have h16 : ¬ (buf.drop 8).length < 8 := by rw [List.length_drop]; omega
  have hal : (buf.drop 16).length < align4 (get32 K.order ((buf.drop 12).take 4)) := by
    rw [List.length_drop]; omega
  simp [-List.length_drop, Record.read, readLoop, breadHeader, breadData, copyN, h0, h8, h16,
    htyp, hal, Nat.add_comm]
  omega

theorem read_name_panic {σ : Type} (K : Consts) (rec : Record σ) (fuel : Nat)
    (h : Heap σ) (buf : List Byte) (hlen : 16 ≤ buf.length)
    (htyp : get32 K.order ((buf.drop 4).take 4) = K.g_mark_block)
    (hal : align4 (get32 K.order ((buf.drop 12).take 4)) ≤ buf.length - 16)
    (hwrap : align4 (get32 K.order ((buf.drop 12).take 4)) < get32 K.order ((buf.drop 12).take 4)) :
    rec.read K (fuel + 1) h buf =
      ⟨.panic, buf.drop (16 + align4 (get32 K.order ((buf.drop 12).take 4))), h, []⟩ := by
  have h0 : buf.length > 0 := by omega
  have h8 : ¬ buf.length < 8 := by omega
  have h16 : ¬ (buf.drop 8).length < 8 := by rw [List.length_drop]; omega
  have hal' : ¬ (buf.drop 16).length < align4 (get32 K.order ((buf.drop 12).take 4)) := by
    rw [List.length_drop]; omega
  have hmin : min (align4 (get32 K.order ((buf.drop 12).take 4))) (buf.drop 16).length =
      align4 (get32 K.order ((buf.drop 12).take 4)) := by rw [List.length_drop]; omega
  simp [-List.length_drop, Record.read, readLoop, breadHeader, breadData, copyN, h0, h8, h16,
    htyp, hal', hmin, hwrap, Nat.add_comm]

/-- Once the padded name has been read, the first event is the map access. -/
theorem read_name_lookup {σ : Type} (K : Consts) (rec : Record σ) (fuel : Nat)
    (h : Heap σ) (buf : List Byte) (hlen : 16 ≤ buf.length)
    (htyp : get32 K.order ((buf.drop 4).take 4) = K.g_mark_block)
    (hal : align4 (get32 K.order ((buf.drop 12).take 4)) ≤ buf.length - 16)
    (hname : get32 K.order ((buf.drop 12).take 4) ≤ align4 (get32 K.order ((buf.drop 12).take 4))) :
    [Event.lookup
        (((buf.drop 16).take (align4 (get32 K.order ((buf.drop 12).take 4)))).take
          (get32 K.order ((buf.drop 12).take 4)))
        ((buf.drop 16).drop (align4 (get32 K.order ((buf.drop 12).take 4))))] <+:
      (rec.read K (fuel + 1) h buf).trace := by
  have h0 : buf.length > 0 := by omega
  have h8 : ¬ buf.length < 8 := by omega
  have h16 : ¬ (buf.drop 8).length < 8 := by rw [List.length_drop]; omega
  have hal' : ¬ (buf.drop 16).length < align4 (get32 K.order ((buf.drop 12).take 4)) := by
    rw [List.length_drop]; omega
  have hmin : min (align4 (get32 K.order ((buf.drop 12).take 4))) (buf.drop 16).length =
      align4 (get32 K.order ((buf.drop 12).take 4)) := by rw [List.length_drop]; omega
  simp only [Record.read, readLoop, breadHeader, breadData, copyN, h0, h8, h16, htyp, hal',
    if_true, if_false, List.drop_drop, List.length_take, hmin, ne_eq, not_true_eq_false,
    Nat.not_lt.mpr hname, List.nil_append, bufNext_length, not_false_eq_true]
  repeat' split
  all_goals first
    | exact List.prefix_refl _
    | exact List.IsPrefix.trans (by simp) (readLoop_trace_extends K rec _ _ _ _)
    | simp

/-- One iteration on an envelope whose name is connected, up to the call of
`UnmarshalBinary`: what the loop does next is decided by what that call
returns. -/
theorem read_known {σ : Type} (K : Consts) (rec : Record σ) (fuel : Nat)
    (h : Heap σ) (buf : List Byte) (NL : Nat) (blk : Block σ)
    (hNL : get32 K.order ((buf.drop 12).take 4) = NL)
    (htyp : get32 K.order ((buf.drop 4).take 4) = K.g_mark_block)
    (hlen : 16 + align4 NL ≤ buf.length)
    (hname : NL ≤ align4 NL)
    (hknown : rec.lookup ((buf.drop 16).take NL) = some blk) :
    rec.read K (fuel + 1) h buf =
      match blk.unmarshal (h blk.ref) (buf.drop (16 + align4 NL)) with
      | (some e, s, buf4) =>
        ⟨.error e, buf4, Function.update h blk.ref s,
          [Event.lookup ((buf.drop 16).take NL) (buf.drop (16 + align4 NL)),
           Event.unmarshal ((buf.drop 16).take NL) (buf.drop (16 + align4 NL))]⟩
      | (none, s, buf4) =>
        if buf4.length > 0 then
          if bytesIndex buf4 (g_mark_block_b K) > 0 then
            match bufNext buf4 (bytesIndex buf4 (g_mark_block_b K) - 8) with
            | none => ⟨.panic, buf4, Function.update h blk.ref s,
                [Event.lookup ((buf.drop 16).take NL) (buf.drop (16 + align4 NL)),
                 Event.unmarshal ((buf.drop 16).take NL) (buf.drop (16 + align4 NL))]⟩
            | some buf5 => readLoop K rec fuel (Function.update h blk.ref s) buf5
                [Event.lookup ((buf.drop 16).take NL) (buf.drop (16 + align4 NL)),
                 Event.unmarshal ((buf.drop 16).take NL) (buf.drop (16 + align4 NL))]
          else
            ⟨.ok, [], Function.update h blk.ref s,
              [Event.lookup ((buf.drop 16).take NL) (buf.drop (16 + align4 NL)),
               Event.unmarshal ((buf.drop 16).take NL) (buf.drop (16 + align4 NL))]⟩
        else
          ⟨.ok, [], Function.update h blk.ref s,
            [Event.lookup ((buf.drop 16).take NL) (buf.drop (16 + align4 NL)),
             Event.unmarshal ((buf.drop 16).take NL) (buf.drop (16 + align4 NL))]⟩ := by
  subst hNL
  have h0 : buf.length > 0 := by omega
  have h8 : ¬ buf.length < 8 := by omega
  have h16 : ¬ (buf.drop 8).length < 8 := by rw [List.length_drop]; omega
  have hal : ¬ (buf.drop 16).length < align4 (get32 K.order ((buf.drop 12).take 4)) := by
    rw [List.length_drop]; omega
  have hmin : min (align4 (get32 K.order ((buf.drop 12).take 4))) (buf.drop 16).length =
      align4 (get32 K.order ((buf.drop 12).take 4)) := by rw [List.length_drop]; omega
  have hmin2 : min (get32 K.order ((buf.drop 12).take 4))
      (align4 (get32 K.order ((buf.drop 12).take 4))) = get32 K.order ((buf.drop 12).take 4) := by
    omega
  simp [-List.length_drop, Record.read, readLoop, breadHeader, breadData, copyN, bufNext_length,
    readLoop_nil, h0, h8, h16, htyp, hal, hmin, Nat.not_lt.mpr hname, List.take_take, hmin2,
    hknown, Nat.add_comm]
  split
  · rename_i heq
    simp [heq]
  · rename_i s1 b4 heq
    try simp only [heq]
    cases b4 with
    | nil => simp [readLoop_nil]
    | cons a t =>
      simp only [List.length_cons, gt_iff_lt, Nat.zero_lt_succ, if_true]

/-- C6: on a buffer that begins with a header whose `Typ` is the marker, a
subheader and a complete padded name (`align4(NameLen)` bytes, of which the
first `NameLen` are the name) that is not in the block mapping, `Record.read`
returns no error, calls `UnmarshalBinary` on no block (its only event is the
map access, the payloads are untouched) and leaves the buffer empty, whatever
bytes follow the name. -/
theorem C6_read_unknown_block {σ : Type} (K : Consts) (rec : Record σ) (fuel : Nat)
    (h : Heap σ) (buf : List Byte)
    (htyp : get32 K.order ((buf.drop 4).take 4) = K.g_mark_block)
    (hlen : 16 + align4 (get32 K.order ((buf.drop 12).take 4)) ≤ buf.length)
    (hname : get32 K.order ((buf.drop 12).take 4) ≤ align4 (get32 K.order ((buf.drop 12).take 4)))
    (hunk : rec.lookup ((buf.drop 16).take (get32 K.order ((buf.drop 12).take 4))) = none) :
    rec.read K (fuel + 1) h buf =
      ⟨.ok, [], h, [Event.lookup ((buf.drop 16).take (get32 K.order ((buf.drop 12).take 4)))
        (buf.drop (16 + align4 (get32 K.order ((buf.drop 12).take 4))))]⟩ := by
  have h0 : buf.length > 0 := by omega
  have h8 : ¬ buf.length < 8 := by omega
  have h16 : ¬ (buf.drop 8).length < 8 := by rw [List.length_drop]; omega
  have hal : ¬ (buf.drop 16).length < align4 (get32 K.order ((buf.drop 12).take 4)) := by
    rw [List.length_drop]; omega
  have hmin : min (align4 (get32 K.order ((buf.drop 12).take 4))) (buf.drop 16).length =
      align4 (get32 K.order ((buf.drop 12).take 4)) := by rw [List.length_drop]; omega
  have hmin2 : min (get32 K.order ((buf.drop 12).take 4))
      (align4 (get32 K.order ((buf.drop 12).take 4))) = get32 K.order ((buf.drop 12).take 4) := by
    omega
  simp [-List.length_drop, Record.read, readLoop, breadHeader, breadData, copyN, bufNext_length,
    readLoop_nil, h0, h8, h16, htyp, hal, hmin, Nat.not_lt.mpr hname, List.take_take, hmin2, hunk,
    Nat.add_comm]

/-- Witness of C6: an envelope named `"z"`, followed by three stray bytes, read
by the record `recA`, which knows the name `"a"` only. -/
theorem C6_read_unknown_block_witness :
    recA.read hepConsts (0 + 1) heapZ
        [0, 0, 0, 21, 222, 173, 190, 239, 0, 0, 0, 0, 0, 0, 0, 1, 122, 0, 0, 0, 7, 1, 2, 3] =
      ⟨.ok, [], heapZ, [Event.lookup [122] [7, 1, 2, 3]]⟩ :=
  C6_read_unknown_block hepConsts recA 0 heapZ
    [0, 0, 0, 21, 222, 173, 190, 239, 0, 0, 0, 0, 0, 0, 0, 1, 122, 0, 0, 0, 7, 1, 2, 3]
    (by decide) (by decide) (by decide) (by rfl)

/-! ## Streams written by `Record.write`, read back -/

/-- In a map (an association list with pairwise distinct keys) a bound name is
found with its own block. -/
theorem lookup_of_mem_nodup {σ : Type} (l : List (Str × Block σ)) (k : Str) (v : Block σ)
    (hnd : (l.map Prod.fst).Nodup) (hmem : (k, v) ∈ l) : l.lookup k = some v := by
  induction l with
  | nil => simp at hmem
  | cons a t ih =>
    obtain ⟨k', v'⟩ := a
    simp only [List.map_cons, List.nodup_cons, List.mem_map, not_exists, not_and] at hnd
    rcases List.mem_cons.mp hmem with heq | hin
    · cases heq
      simp [List.lookup]
    · have hne : k ≠ k' := by
        intro hkk
        exact hnd.1 (k, v) hin hkk
      have hb : (k == k') = false := by simpa using hne
      simp only [List.lookup, hb]
      exact ih hnd.2 hin

/-- The write loop only appends to the destination. -/
theorem writeLoop_buf_extends {σ : Type} (K : Consts) (h : Heap σ) (l : List (Str × Block σ)) :
    ∀ buf : List Byte, ∃ t, (writeLoop K h l buf).buf = buf ++ t := by
  induction l with
  | nil => intro buf; exact ⟨[], by simp [writeLoop]⟩
  | cons a t ih =>
    intro buf
    obtain ⟨k, blk⟩ := a
    unfold writeLoop
    split
    · exact ⟨[], by simp⟩
    · rename_i b hb
      obtain ⟨t', ht'⟩ := ih (writeEnvelope K k blk b buf)
      rw [ht', writeEnvelope_eq]
      exact ⟨_, by rw [List.append_assoc]⟩

theorem drop16_envelope (o : ByteOrder) (a b c d : Nat) (X : List Byte) :
    (put32 o a ++ (put32 o b ++ (put32 o c ++ (put32 o d ++ X)))).drop 16 = X := by
  have e : (16 : Nat) = 4 + (4 + (4 + 4)) := rfl
  rw [e, ← List.drop_drop, ← List.drop_drop, ← List.drop_drop]
  simp only [drop_put32_append]

theorem typ_envelope (o : ByteOrder) (a b : Nat) (X : List Byte) :
    ((put32 o a ++ (put32 o b ++ X)).drop 4).take 4 = put32 o b := by
  simp only [drop_put32_append, take_put32_append]

theorem nameLen_envelope (o : ByteOrder) (a b c d : Nat) (X : List Byte) :
    ((put32 o a ++ (put32 o b ++ (put32 o c ++ (put32 o d ++ X)))).drop 12).take 4 = put32 o d := by
  have e : (12 : Nat) = 4 + (4 + 4) := rfl
  rw [e, ← List.drop_drop, ← List.drop_drop]
  simp only [drop_put32_append, take_put32_append]

theorem slice_take {α : Type} (l : List α) (c i n : Nat) (h : i + n ≤ c) :
    ((l.take c).drop i).take n = (l.drop i).take n := by
  rw [List.drop_take, List.take_take]
  congr 1
  omega



/-- C8 (as stated, refuted): the stream written for the two blocks `"a"` and
`"b"` has 42 bytes, 21 for each envelope; its prefix of 24 bytes is cut inside
the header of the second envelope, and `Record.read` of that prefix returns no
error: after the first block the three bytes left hold no block marker and are
discarded. -/
theorem C8_read_truncated_second_header_ok :
    (recAB.write hepConsts recAB.blocks heapW []).buf.length = 42 ∧
    (recAB.read hepConsts 1 heapZ
        ((recAB.write hepConsts recAB.blocks heapW []).buf.take 24)).status = .ok := by
  decide

/-- C8 (amended): for a stream written by `Record.write` for a record with one
or more connected blocks (names pairwise distinct, the first name shorter than
`2^32 - 3` bytes), and every prefix of it cut strictly inside the first
envelope (inside its header or subheader, its padded name or its payload),
`Record.read` of that prefix on a record with the same names connected, the
first block's unmarshal failing on fewer bytes than its payload has, returns an
error. -/
theorem C8_read_truncated_first_envelope {σ : Type} (K : Consts) (rec : Record σ)
    (order rest : List (Str × Block σ)) (hw hr : Heap σ) (fuel : Nat) (k : Str) (blk : Block σ)
    (p : List Byte) (c : Nat)
    (hK : K.WF)
    (hnodup : (rec.blocks.map Prod.fst).Nodup)
    (horder : order.Perm rec.blocks)
    (hfirst : order = (k, blk) :: rest)
    (hm : blk.marshal (hw blk.ref) = .ok p)
    (hk : k.length + 3 < 2 ^ 32)
    (htrunc : ∀ (s : σ) (b : List Byte), b.length < p.length → (blk.unmarshal s b).1 ≠ none)
    (hc0 : 0 < c) (hc : c < 16 + align4 k.length + p.length) :
    ∃ e, (rec.read K (fuel + 1) hr ((rec.write K order hw []).buf.take c)).status = .error e := by
  have hmark : u32 K.g_mark_block = K.g_mark_block := u32_of_lt hK.1
  have hL : u32 k.length = k.length := u32_of_lt (by omega)
  have hal : k.length ≤ align4 k.length := le_align4 hk
  have hal32 : align4 k.length < 2 ^ 32 := u32_lt _
  -- the stream begins with the envelope of the first block visited
  obtain ⟨t, ht⟩ : ∃ t, (rec.write K order hw []).buf =
      put32 K.order (16 + align4 k.length + p.length) ++ (put32 K.order K.g_mark_block ++
        (put32 K.order blk.version ++ (put32 K.order k.length ++
          (k ++ (List.replicate (align4 k.length - k.length) (0 : Byte) ++ (p ++ t)))))) := by
    obtain ⟨t, ht⟩ := writeLoop_buf_extends K hw rest (writeEnvelope K k blk p [])
    refine ⟨t, ?_⟩
    rw [hfirst]
    simp only [Record.write, writeLoop, hm]
    rw [ht, writeEnvelope_eq, hL, sub32_of_le hal hal32]
    simp only [List.nil_append, List.append_assoc]
  generalize hstream : (rec.write K order hw []).buf = stream at ht
  have hslen : stream.length = 16 + align4 k.length + p.length + t.length := by
    rw [ht]
    simp only [List.length_append, put32_length, List.length_replicate]
    omega
  have hblen : (stream.take c).length = c := by
    rw [List.length_take]; omega
  have htyp : 8 ≤ c → get32 K.order (((stream.take c).drop 4).take 4) = K.g_mark_block := by
    intro h8
    rw [slice_take _ _ _ _ (by omega), ht, typ_envelope, get32_put32, hmark]
  have hNL : 16 ≤ c → get32 K.order (((stream.take c).drop 12).take 4) = k.length := by
    intro h16
    rw [slice_take _ _ _ _ (by omega), ht, nameLen_envelope, get32_put32, hL]
  by_cases h8 : c < 8
  · exact ⟨_, by rw [read_truncated_header K rec fuel hr _ (by omega) (by omega)]⟩
  by_cases h16 : c < 16
  · exact ⟨_, by
      rw [read_truncated_subheader K rec fuel hr _ (by omega) (by omega) (htyp (by omega))]⟩
  by_cases hname : c - 16 < align4 k.length
  · exact ⟨_, by
      rw [read_truncated_name K rec fuel hr _ (by omega) (htyp (by omega))
        (by rw [hNL (by omega), hblen]; exact hname)]⟩
  · have hmem : (k, blk) ∈ rec.blocks := by
      apply horder.subset
      rw [hfirst]
      exact List.mem_cons_self _ _
    have hname_eq : ((stream.take c).drop 16).take k.length = k := by
      have e0 : ((stream.take c).drop 16).take k.length = (stream.drop 16).take k.length := by
        have := slice_take stream c 16 k.length (by omega)
        exact this
      rw [e0, ht, drop16_envelope]
      exact List.take_left' rfl
    have hknown : rec.lookup (((stream.take c).drop 16).take k.length) = some blk := by
      rw [hname_eq]
      exact lookup_of_mem_nodup _ _ _ hnodup hmem
    have hstep := read_known K rec fuel hr (stream.take c) k.length blk (hNL (by omega))
      (htyp (by omega)) (by rw [hblen]; omega) hal hknown
    have hshort : ((stream.take c).drop (16 + align4 k.length)).length < p.length := by
      rw [List.length_drop, hblen]; omega
    have hfail := htrunc (hr blk.ref) _ hshort
    rcases hu : blk.unmarshal (hr blk.ref) ((stream.take c).drop (16 + align4 k.length)) with
      ⟨_ | e, s, b4⟩
    · rw [hu] at hfail
      exact absurd rfl hfail
    · rw [hu] at hstep
      exact ⟨e, by rw [hstep]⟩

/-- Witness of C8 (amended): the stream of `recAB` cut after 18 bytes, inside
the padded name of the first envelope. -/
theorem C8_read_truncated_first_envelope_witness :
    ∃ e, (recAB.read hepConsts (0 + 1) heapZ
      ((recAB.write hepConsts recAB.blocks heapW []).buf.take 18)).status = .error e :=
  C8_read_truncated_first_envelope hepConsts recAB recAB.blocks [([98], blkB)] heapW heapZ 0
    [97] blkA [7] 18 (by decide) (by decide) (List.Perm.refl _) rfl (by rfl) (by decide)
    (by
      intro s b hb
      cases b with
      | nil => simp [blkA, byteBlock]
      | cons x t => simp at hb)
    (by decide) (by decide)

/-! ## The resynchronisation step -/

/-- Where the pattern starts the slice, `bytes.Index` is the current offset. -/
theorem indexFrom_of_isPrefixOf (sep s : List Byte) (i : Nat) (h : sep.isPrefixOf s = true) :
    indexFrom sep s i = i := by
  cases s with
  | nil =>
    have : sep = [] := by
      cases sep with
      | nil => rfl
      | cons a t => simp [List.isPrefixOf] at h
    simp [indexFrom, this]
  | cons b t => simp [indexFrom, h]

/-- Where the pattern does not start the slice and occurs `j` bytes further,
`bytes.Index` lies between 1 and `j`. -/
theorem indexFrom_bounds (sep : List Byte) :
    ∀ (s : List Byte) (i j : Nat), sep.isPrefixOf (s.drop j) = true →
      sep.isPrefixOf s = false →
      (i : Int) + 1 ≤ indexFrom sep s i ∧ indexFrom sep s i ≤ (i : Int) + j := by
  intro s
  induction s with
  | nil =>
    intro i j hj hnot
    simp only [List.drop_nil] at hj
    rw [hj] at hnot
    exact absurd hnot (by simp)
  | cons b t ih =>
    intro i j hj hnot
    cases j with
    | zero =>
      simp only [List.drop_zero] at hj
      rw [hj] at hnot
      exact absurd hnot (by simp)
    | succ j' =>
      simp only [List.drop_succ_cons] at hj
      have hidx : indexFrom sep (b :: t) i = indexFrom sep t (i + 1) := by
        simp [indexFrom, hnot]
      rw [hidx]
      by_cases ht : sep.isPrefixOf t = true
      · rw [indexFrom_of_isPrefixOf sep t (i + 1) ht]
        push_cast
        omega
      · have ht' : sep.isPrefixOf t = false := Bool.eq_false_iff.mpr ht
        have := ih (i + 1) j' hj ht'
        push_cast at this ⊢
        omega

theorem put32_injective (o : ByteOrder) {a b : Nat} (h : put32 o a = put32 o b) :
    u32 a = u32 b := by
  have := congrArg (get32 o) h
  simpa [get32_put32] using this

/-- Where the next envelope follows directly, the marker is found at an offset
between 1 and 4. -/
theorem bytesIndex_next_envelope (K : Consts) (len2 : Nat) (tail : List Byte)
    (hne : u32 len2 ≠ u32 K.g_mark_block) :
    0 < bytesIndex (put32 K.order len2 ++ (put32 K.order K.g_mark_block ++ tail))
        (g_mark_block_b K) ∧
    bytesIndex (put32 K.order len2 ++ (put32 K.order K.g_mark_block ++ tail))
        (g_mark_block_b K) ≤ 4 := by
  have h1 : (g_mark_block_b K).isPrefixOf
      ((put32 K.order len2 ++ (put32 K.order K.g_mark_block ++ tail)).drop 4) = true := by
    rw [drop_put32_append, List.isPrefixOf_iff_prefix]
    exact List.prefix_append _ _
  have h2 : (g_mark_block_b K).isPrefixOf
      (put32 K.order len2 ++ (put32 K.order K.g_mark_block ++ tail)) = false := by
    rw [Bool.eq_false_iff]
    intro hp
    rw [List.isPrefixOf_iff_prefix, List.prefix_iff_eq_take] at hp
    have h4 : (g_mark_block_b K).length = 4 := put32_length _ _
    rw [h4, take_put32_append] at hp
    exact hne (put32_injective K.order hp).symm
  have := indexFrom_bounds (g_mark_block_b K) _ 0 4 h1 h2
  simp only [bytesIndex]
  push_cast at this
  omega

/-- The resynchronisation step panics whenever a block was decoded and the
next envelope follows directly (unless its `Len` is the marker itself). -/
theorem read_resync_panics {σ : Type} (K : Consts) (rec : Record σ) (fuel : Nat)
    (h : Heap σ) (buf : List Byte) (NL : Nat) (blk : Block σ) (s : σ) (len2 : Nat)
    (tail : List Byte)
    (hNL : get32 K.order ((buf.drop 12).take 4) = NL)
    (htyp : get32 K.order ((buf.drop 4).take 4) = K.g_mark_block)
    (hlen : 16 + align4 NL ≤ buf.length)
    (hname : NL ≤ align4 NL)
    (hknown : rec.lookup ((buf.drop 16).take NL) = some blk)
    (hun : blk.unmarshal (h blk.ref) (buf.drop (16 + align4 NL)) =
      (none, s, put32 K.order len2 ++ (put32 K.order K.g_mark_block ++ tail)))
    (hne : u32 len2 ≠ u32 K.g_mark_block) :
    rec.read K (fuel + 1) h buf =
      ⟨.panic, put32 K.order len2 ++ (put32 K.order K.g_mark_block ++ tail),
        Function.update h blk.ref s,
        [Event.lookup ((buf.drop 16).take NL) (buf.drop (16 + align4 NL)),
         Event.unmarshal ((buf.drop 16).take NL) (buf.drop (16 + align4 NL))]⟩ := by
  rw [read_known K rec fuel h buf NL blk hNL htyp hlen hname hknown, hun]
  obtain ⟨hpos, hle⟩ := bytesIndex_next_envelope K len2 tail hne
  have hl : (put32 K.order len2 ++ (put32 K.order K.g_mark_block ++ tail)).length > 0 := by
    simp only [List.length_append, put32_length]; omega
  have hneg : bufNext (put32 K.order len2 ++ (put32 K.order K.g_mark_block ++ tail))
      (bytesIndex (put32 K.order len2 ++ (put32 K.order K.g_mark_block ++ tail))
        (g_mark_block_b K) - 8) = none := bufNext_neg _ _ (by omega)
  simp only [hl, if_true, hpos, hneg]


/-- What the write loop appends does not depend on what the destination held. -/
theorem writeLoop_buf_append {σ : Type} (K : Consts) (h : Heap σ) (l : List (Str × Block σ)) :
    ∀ buf : List Byte, (writeLoop K h l buf).buf = buf ++ (writeLoop K h l []).buf := by
  induction l with
  | nil => intro buf; simp [writeLoop]
  | cons a t ih =>
    intro buf
    obtain ⟨k, blk⟩ := a
    unfold writeLoop
    split
    · simp
    · rename_i b hb
      rw [ih (writeEnvelope K k blk b buf), ih (writeEnvelope K k blk b [])]
      rw [writeEnvelope_eq K k blk b buf, writeEnvelope_eq K k blk b []]
      simp only [List.nil_append, List.append_assoc]

/-- C3: for a block name of length `L` and a marshaled payload of length `P`
with `16 + ((L+3)/4)*4 + P < 2^32`, the iteration of `Record.write` for that
block appends to the destination an envelope `env` of exactly
`8 + 8 + ((L+3)/4)*4 + P` bytes: written alone the block leaves the
destination followed by `env` and no error; written before other blocks it
leaves the destination, then `env`, then what the other blocks write. In the
bytes `Record.write` produced, the `Len` field at the start of the envelope
decodes to `8 + 8 + ((L+3)/4)*4 + P`, the name field (name and zero padding)
after the 16 header bytes has exactly `((L+3)/4)*4` bytes, and the payload
follows it. -/
theorem C3_write_envelope_length {σ : Type} (K : Consts) (rec : Record σ) (h : Heap σ)
    (k : Str) (blk : Block σ) (rest : List (Str × Block σ)) (p dst : List Byte)
    (hm : blk.marshal (h blk.ref) = .ok p)
    (hb : 16 + (k.length + 3) / 4 * 4 + p.length < 2 ^ 32) :
    ∃ field env : List Byte,
      field = k ++ List.replicate ((k.length + 3) / 4 * 4 - k.length) (0 : Byte) ∧
      env = put32 K.order (8 + 8 + (k.length + 3) / 4 * 4 + p.length) ++
        put32 K.order K.g_mark_block ++ put32 K.order blk.version ++
        put32 K.order k.length ++ field ++ p ∧
      rec.write K ((k, blk) :: rest) h dst = rec.write K rest h (dst ++ env) ∧
      field.length = (k.length + 3) / 4 * 4 ∧
      get32 K.order (env.take 4) = 8 + 8 + (k.length + 3) / 4 * 4 + p.length ∧
      env.length = 8 + 8 + (k.length + 3) / 4 * 4 + p.length ∧
      rec.write K [(k, blk)] h dst = ⟨none, dst ++ env⟩ ∧
      (rec.write K ((k, blk) :: rest) h dst).buf =
        dst ++ env ++ (rec.write K rest h []).buf ∧
      (rec.write K [(k, blk)] h dst).buf.length =
        dst.length + (8 + 8 + (k.length + 3) / 4 * 4 + p.length) ∧
      (rec.write K ((k, blk) :: rest) h dst).buf.length =
        dst.length + (8 + 8 + (k.length + 3) / 4 * 4 + p.length) + (rec.write K rest h []).buf.length ∧
      (rec.write K ((k, blk) :: rest) h dst).buf.take dst.length = dst ∧
      get32 K.order (((rec.write K ((k, blk) :: rest) h dst).buf.drop dst.length).take 4) =
        8 + 8 + (k.length + 3) / 4 * 4 + p.length ∧
      ((rec.write K ((k, blk) :: rest) h dst).buf.drop (dst.length + 16)).take
        ((k.length + 3) / 4 * 4) = field ∧
      ((rec.write K ((k, blk) :: rest) h dst).buf.drop
        (dst.length + 16 + (k.length + 3) / 4 * 4)).take p.length = p := by
  have hL : k.length + 3 < 2 ^ 32 := by omega
  have hn : u32 k.length = k.length := u32_of_lt (by omega)
  have key : ∀ rest : List (Str × Block σ), rec.write K ((k, blk) :: rest) h dst =
      rec.write K rest h (dst ++ (put32 K.order (8 + 8 + (k.length + 3) / 4 * 4 + p.length) ++
        put32 K.order K.g_mark_block ++ put32 K.order blk.version ++
        put32 K.order k.length ++
        (k ++ List.replicate ((k.length + 3) / 4 * 4 - k.length) (0 : Byte)) ++ p)) := by
    intro rest
    simp only [Record.write, writeLoop, hm, writeEnvelope_eq]
    rw [padlen_of_lt hL, hn, align4_of_lt hL]
    simp [List.append_assoc]
  have hlen : (put32 K.order (8 + 8 + (k.length + 3) / 4 * 4 + p.length) ++
        put32 K.order K.g_mark_block ++ put32 K.order blk.version ++
        put32 K.order k.length ++
        (k ++ List.replicate ((k.length + 3) / 4 * 4 - k.length) (0 : Byte)) ++ p).length =
      8 + 8 + (k.length + 3) / 4 * 4 + p.length := by
    simp only [List.length_append, List.length_replicate, put32_length]
    omega
  have hbuf : (rec.write K ((k, blk) :: rest) h dst).buf = dst ++
      (put32 K.order (8 + 8 + (k.length + 3) / 4 * 4 + p.length) ++
        put32 K.order K.g_mark_block ++ put32 K.order blk.version ++
        put32 K.order k.length ++
        (k ++ List.replicate ((k.length + 3) / 4 * 4 - k.length) (0 : Byte)) ++ p) ++
      (rec.write K rest h []).buf := by
    rw [key rest]
    exact writeLoop_buf_append K h rest _
  have hfl : (k ++ List.replicate ((k.length + 3) / 4 * 4 - k.length) (0 : Byte)).length =
      (k.length + 3) / 4 * 4 := by
    simp only [List.length_append, List.length_replicate]
    omega
  refine ⟨_, _, rfl, rfl, key rest, hfl, ?_, hlen, ?_, hbuf, ?_, ?_, ?_, ?_, ?_, ?_⟩
  · simp only [List.append_assoc]
    rw [take_put32_append, get32_put32]
    exact u32_of_lt (by omega)
  · rw [key []]
    rfl
  · rw [key []]
    show (dst ++ _).length = _
    rw [List.length_append, hlen]
  · rw [hbuf, List.length_append, List.length_append, hlen]
  · rw [hbuf, List.append_assoc, List.take_left]
  · rw [hbuf, List.append_assoc, List.drop_left]
    simp only [List.append_assoc]
    rw [take_put32_append, get32_put32]
    exact u32_of_lt (by omega)
  · have h16 : (dst ++ (put32 K.order (8 + 8 + (k.length + 3) / 4 * 4 + p.length) ++
        put32 K.order K.g_mark_block ++ put32 K.order blk.version ++
        put32 K.order k.length)).length = dst.length + 16 := by
      simp only [List.length_append, put32_length]
    have e : (rec.write K ((k, blk) :: rest) h dst).buf =
        (dst ++ (put32 K.order (8 + 8 + (k.length + 3) / 4 * 4 + p.length) ++
          put32 K.order K.g_mark_block ++ put32 K.order blk.version ++
          put32 K.order k.length)) ++
        ((k ++ List.replicate ((k.length + 3) / 4 * 4 - k.length) (0 : Byte)) ++
          (p ++ (rec.write K rest h []).buf)) := by
      rw [hbuf]
      simp only [List.append_assoc]
    rw [e, List.drop_left' h16, List.take_left' hfl]
  · have h16 : (dst ++ (put32 K.order (8 + 8 + (k.length + 3) / 4 * 4 + p.length) ++
        put32 K.order K.g_mark_block ++ put32 K.order blk.version ++
        put32 K.order k.length ++
        (k ++ List.replicate ((k.length + 3) / 4 * 4 - k.length) (0 : Byte)))).length =
        dst.length + 16 + (k.length + 3) / 4 * 4 := by
      simp only [List.length_append, put32_length, List.length_replicate]
      omega
    have e : (rec.write K ((k, blk) :: rest) h dst).buf =
        (dst ++ (put32 K.order (8 + 8 + (k.length + 3) / 4 * 4 + p.length) ++
          put32 K.order K.g_mark_block ++ put32 K.order blk.version ++
          put32 K.order k.length ++
          (k ++ List.replicate ((k.length + 3) / 4 * 4 - k.length) (0 : Byte)))) ++
        (p ++ (rec.write K rest h []).buf) := by
      rw [hbuf]
      simp only [List.append_assoc]
    rw [e, List.drop_left' h16, List.take_left]

/-- Witness of C3: the block `"a"` of the record `recAB`, with the one-byte
payload `7`, written before the block `"b"` into a buffer that holds the bytes
`1, 2`; the envelope has 21 bytes and a 4-byte name field. -/
theorem C3_write_envelope_length_witness :
    ∃ field env : List Byte,
      field = [97] ++ List.replicate ((([97] : Str).length + 3) / 4 * 4 - ([97] : Str).length) (0 : Byte) ∧
      env = put32 hepConsts.order (8 + 8 + (([97] : Str).length + 3) / 4 * 4 + ([7] : List Byte).length) ++
        put32 hepConsts.order hepConsts.g_mark_block ++ put32 hepConsts.order blkA.version ++
        put32 hepConsts.order ([97] : Str).length ++ field ++ [7] ∧
      recAB.write hepConsts (([97], blkA) :: [([98], blkB)]) heapW [1, 2] = recAB.write hepConsts [([98], blkB)] heapW ([1, 2] ++ env) ∧
      field.length = (([97] : Str).length + 3) / 4 * 4 ∧
      get32 hepConsts.order (env.take 4) = 8 + 8 + (([97] : Str).length + 3) / 4 * 4 + ([7] : List Byte).length ∧
      env.length = 8 + 8 + (([97] : Str).length + 3) / 4 * 4 + ([7] : List Byte).length ∧
      recAB.write hepConsts [([97], blkA)] heapW [1, 2] = ⟨none, [1, 2] ++ env⟩ ∧
      (recAB.write hepConsts (([97], blkA) :: [([98], blkB)]) heapW [1, 2]).buf =
        [1, 2] ++ env ++ (recAB.write hepConsts [([98], blkB)] heapW []).buf ∧
      (recAB.write hepConsts [([97], blkA)] heapW [1, 2]).buf.length =
        ([1, 2] : List Byte).length + (8 + 8 + (([97] : Str).length + 3) / 4 * 4 + ([7] : List Byte).length) ∧
      (recAB.write hepConsts (([97], blkA) :: [([98], blkB)]) heapW [1, 2]).buf.length =
        ([1, 2] : List Byte).length + (8 + 8 + (([97] : Str).length + 3) / 4 * 4 + ([7] : List Byte).length) + (recAB.write hepConsts [([98], blkB)] heapW []).buf.length ∧
      (recAB.write hepConsts (([97], blkA) :: [([98], blkB)]) heapW [1, 2]).buf.take ([1, 2] : List Byte).length = [1, 2] ∧
      get32 hepConsts.order (((recAB.write hepConsts (([97], blkA) :: [([98], blkB)]) heapW [1, 2]).buf.drop ([1, 2] : List Byte).length).take 4) =
        8 + 8 + (([97] : Str).length + 3) / 4 * 4 + ([7] : List Byte).length ∧
      ((recAB.write hepConsts (([97], blkA) :: [([98], blkB)]) heapW [1, 2]).buf.drop (([1, 2] : List Byte).length + 16)).take
        ((([97] : Str).length + 3) / 4 * 4) = field ∧
      ((recAB.write hepConsts (([97], blkA) :: [([98], blkB)]) heapW [1, 2]).buf.drop
        (([1, 2] : List Byte).length + 16 + (([97] : Str).length + 3) / 4 * 4)).take ([7] : List Byte).length = [7] :=
  C3_write_envelope_length hepConsts recAB heapW [97] blkA [([98], blkB)] [7] [1, 2]
    (by rfl) (by decide)

/-- The stream written for a visiting order that starts with the block `blk`
under the name `k`: the envelope of that block, then what the loop writes for
the blocks after it. -/
theorem write_cons_buf {σ : Type} (K : Consts) (rec : Record σ) (hw : Heap σ) (k : Str)
    (blk : Block σ) (rest : List (Str × Block σ)) (p : List Byte)
    (hm : blk.marshal (hw blk.ref) = .ok p) (hk : k.length + 3 < 2 ^ 32) :
    (rec.write K ((k, blk) :: rest) hw []).buf =
      put32 K.order (16 + align4 k.length + p.length) ++ (put32 K.order K.g_mark_block ++
        (put32 K.order blk.version ++ (put32 K.order k.length ++
          (k ++ (List.replicate (align4 k.length - k.length) (0 : Byte) ++
            (p ++ (rec.write K rest hw []).buf)))))) := by
  have hL : u32 k.length = k.length := u32_of_lt (by omega)
  simp only [Record.write, writeLoop, hm]
  rw [writeLoop_buf_append, writeEnvelope_eq, hL, sub32_of_le (le_align4 hk) (u32_lt _)]
  simp only [List.nil_append, List.append_assoc]

theorem drop_name_envelope (o : ByteOrder) (a b c d : Nat) (k : Str) (n : Nat) (X : List Byte)
    (hk : k.length ≤ n) :
    (put32 o a ++ (put32 o b ++ (put32 o c ++ (put32 o d ++
      (k ++ (List.replicate (n - k.length) (0 : Byte) ++ X)))))).drop (16 + n) = X := by
  rw [← List.drop_drop, drop16_envelope, ← List.append_assoc]
  exact List.drop_left' (by simp only [List.length_append, List.length_replicate]; omega)

/-- Write, then read, for a record with one block: the payload is restored. -/
theorem roundtrip_single_block {σ : Type} (K : Consts) (rec : Record σ)
    (order : List (Str × Block σ)) (hw hr : Heap σ) (fuel : Nat) (k : Str) (blk : Block σ)
    (p : List Byte) (hK : K.WF)
    (hblocks : rec.blocks = [(k, blk)]) (horder : order.Perm rec.blocks)
    (hm : blk.marshal (hw blk.ref) = .ok p) (hk : k.length + 3 < 2 ^ 32)
    (hun : ∀ s, blk.unmarshal s p = (none, hw blk.ref, [])) :
    rec.read K (fuel + 1) hr (rec.write K order hw []).buf =
      ⟨.ok, [], Function.update hr blk.ref (hw blk.ref),
        [Event.lookup k p, Event.unmarshal k p]⟩ := by
  rw [hblocks] at horder
  have ho : order = [(k, blk)] := List.perm_singleton.mp horder
  subst ho
  have hmark : u32 K.g_mark_block = K.g_mark_block := u32_of_lt hK.1
  have hL : u32 k.length = k.length := u32_of_lt (by omega)
  have hal : k.length ≤ align4 k.length := le_align4 hk
  have hst := write_cons_buf K rec hw k blk [] p hm hk
  have hnil : (rec.write K [] hw []).buf = [] := rfl
  rw [hnil, List.append_nil] at hst
  generalize (rec.write K [(k, blk)] hw []).buf = stream at hst
  have hslen : stream.length = 16 + align4 k.length + p.length := by
    rw [hst]
    simp only [List.length_append, put32_length, List.length_replicate]
    omega
  have hNL : get32 K.order ((stream.drop 12).take 4) = k.length := by
    rw [hst, nameLen_envelope, get32_put32, hL]
  have htyp : get32 K.order ((stream.drop 4).take 4) = K.g_mark_block := by
    rw [hst, typ_envelope, get32_put32, hmark]
  have hname : (stream.drop 16).take k.length = k := by
    rw [hst, drop16_envelope]
    exact List.take_left' rfl
  have hrest : stream.drop (16 + align4 k.length) = p := by
    rw [hst, drop_name_envelope _ _ _ _ _ _ _ _ hal]
  have hknown : rec.lookup ((stream.drop 16).take k.length) = some blk := by
    rw [hname]
    simp [Record.lookup, hblocks, List.lookup]
  rw [read_known K rec fuel hr stream k.length blk hNL htyp (by omega) hal hknown, hrest,
    hun, hname]
  simp

/-- Write, then read, for a record with two or more blocks: after the first
block visited the read panics in its resynchronisation step (unless the `Len`
of the second envelope is the marker itself). -/
theorem roundtrip_two_blocks_panics {σ : Type} (K : Consts) (rec : Record σ)
    (order rest : List (Str × Block σ)) (hw hr : Heap σ) (fuel : Nat)
    (k1 k2 : Str) (b1 b2 : Block σ) (p1 p2 : List Byte) (hK : K.WF)
    (hnodup : (rec.blocks.map Prod.fst).Nodup) (horder : order.Perm rec.blocks)
    (hfirst : order = (k1, b1) :: (k2, b2) :: rest)
    (hm1 : b1.marshal (hw b1.ref) = .ok p1) (hm2 : b2.marshal (hw b2.ref) = .ok p2)
    (hk1 : k1.length + 3 < 2 ^ 32) (hk2 : k2.length + 3 < 2 ^ 32)
    (hun : ∀ s tail, b1.unmarshal s (p1 ++ tail) = (none, hw b1.ref, tail))
    (hlen2 : u32 (16 + align4 k2.length + p2.length) ≠ u32 K.g_mark_block) :
    (rec.read K (fuel + 1) hr (rec.write K order hw []).buf).status = .panic := by
  have hmark : u32 K.g_mark_block = K.g_mark_block := u32_of_lt hK.1
  have hL : u32 k1.length = k1.length := u32_of_lt (by omega)
  have hal : k1.length ≤ align4 k1.length := le_align4 hk1
  have hst := write_cons_buf K rec hw k1 b1 ((k2, b2) :: rest) p1 hm1 hk1
  rw [write_cons_buf K rec hw k2 b2 rest p2 hm2 hk2] at hst
  rw [hfirst]
  generalize (rec.write K ((k1, b1) :: (k2, b2) :: rest) hw []).buf = stream at hst
  have hslen : 16 + align4 k1.length ≤ stream.length := by
    rw [hst]
    simp only [List.length_append, put32_length, List.length_replicate]
    omega
  have hNL : get32 K.order ((stream.drop 12).take 4) = k1.length := by
    rw [hst, nameLen_envelope, get32_put32, hL]
  have htyp : get32 K.order ((stream.drop 4).take 4) = K.g_mark_block := by
    rw [hst, typ_envelope, get32_put32, hmark]
  have hname : (stream.drop 16).take k1.length = k1 := by
    rw [hst, drop16_envelope]
    exact List.take_left' rfl
  have hmem : (k1, b1) ∈ rec.blocks := by
    apply horder.subset
    rw [hfirst]
    exact List.mem_cons_self _ _
  have hknown : rec.lookup ((stream.drop 16).take k1.length) = some b1 := by
    rw [hname]
    exact lookup_of_mem_nodup _ _ _ hnodup hmem
  have hrest := drop_name_envelope K.order (16 + align4 k1.length + p1.length) K.g_mark_block
    b1.version k1.length k1 (align4 k1.length)
    (p1 ++ (put32 K.order (16 + align4 k2.length + p2.length) ++
      (put32 K.order K.g_mark_block ++ (put32 K.order b2.version ++ (put32 K.order k2.length ++
        (k2 ++ (List.replicate (align4 k2.length - k2.length) (0 : Byte) ++
          (p2 ++ (rec.write K rest hw []).buf)))))))) hal
  rw [← hst] at hrest
  have hu := hun (hr b1.ref) (put32 K.order (16 + align4 k2.length + p2.length) ++
      (put32 K.order K.g_mark_block ++ (put32 K.order b2.version ++ (put32 K.order k2.length ++
        (k2 ++ (List.replicate (align4 k2.length - k2.length) (0 : Byte) ++
          (p2 ++ (rec.write K rest hw []).buf)))))))
  rw [← hrest] at hu
  rw [read_resync_panics K rec fuel hr stream k1.length b1 (hw b1.ref) _ _ hNL htyp hslen hal
    hknown hu hlen2]

/-! ## The resynchronisation step and the name slice, at concrete inputs -/

/-- C1 (the code at a failing input): the record with the two blocks `"a"` and
`"b"`, payloads `7` and `8`, is written without error; `Record.read` of the
written stream into fresh payloads panics after the first block (the marker of
the second envelope is found at offset 4 and `buf.Next(4 - 8)` is called), so
the payload of `"b"` is still `0`, not `8`. -/
theorem C1_roundtrip_two_blocks_panics (fuel : Nat) :
    (recAB.write hepConsts recAB.blocks heapW []).err = none ∧
    (recAB.read hepConsts (fuel + 1) heapZ
        (recAB.write hepConsts recAB.blocks heapW []).buf).status = .panic ∧
    (recAB.read hepConsts (fuel + 1) heapZ
        (recAB.write hepConsts recAB.blocks heapW []).buf).heap blkB.ref = 0 ∧
    heapW blkB.ref = 8 := by
  refine ⟨by decide, ?_, ?_, by decide⟩
  · rfl
  · rfl

/-- C2 (the code at a failing input): the concatenation of the envelope of
`"a"` (payload `7`) and the envelope of `"b"` (payload `9`), each `Len` equal
to the 21 bytes of its envelope: `Record.read` unmarshals the first block and
then panics in the resynchronisation step; the second block is never looked
up. -/
theorem C2_read_two_envelopes_panics (fuel : Nat) :
    (recAB.read hepConsts (fuel + 1) heapZ
      [0, 0, 0, 21, 222, 173, 190, 239, 0, 0, 0, 0, 0, 0, 0, 1, 97, 0, 0, 0, 7,
       0, 0, 0, 21, 222, 173, 190, 239, 0, 0, 0, 0, 0, 0, 0, 1, 98, 0, 0, 0, 9]).status =
      .panic ∧
    (recAB.read hepConsts (fuel + 1) heapZ
      [0, 0, 0, 21, 222, 173, 190, 239, 0, 0, 0, 0, 0, 0, 0, 1, 97, 0, 0, 0, 7,
       0, 0, 0, 21, 222, 173, 190, 239, 0, 0, 0, 0, 0, 0, 0, 1, 98, 0, 0, 0, 9]).trace =
      [Event.lookup [97]
         [7, 0, 0, 0, 21, 222, 173, 190, 239, 0, 0, 0, 0, 0, 0, 0, 1, 98, 0, 0, 0, 9],
       Event.unmarshal [97]
         [7, 0, 0, 0, 21, 222, 173, 190, 239, 0, 0, 0, 0, 0, 0, 0, 1, 98, 0, 0, 0, 9]] := by
  constructor <;> rfl

/-- C7 (the code at a failing input): the envelopes of `"a"`, `"b"`, `"c"`
(payloads `7`, `8`, `9`) read by the record that knows `"a"` and `"c"`:
`Record.read` decodes `"a"`, then panics in the resynchronisation step before
the envelope of `"b"` is read; it does not return, and the buffer still holds
the envelopes of `"b"` and `"c"`. -/
theorem C7_read_unknown_between_known_panics (fuel : Nat) :
    (recAC.read hepConsts (fuel + 1) heapZ
      [0, 0, 0, 21, 222, 173, 190, 239, 0, 0, 0, 0, 0, 0, 0, 1, 97, 0, 0, 0, 7,
       0, 0, 0, 21, 222, 173, 190, 239, 0, 0, 0, 0, 0, 0, 0, 1, 98, 0, 0, 0, 8,
       0, 0, 0, 21, 222, 173, 190, 239, 0, 0, 0, 0, 0, 0, 0, 1, 99, 0, 0, 0, 9]).status =
      .panic ∧
    (recAC.read hepConsts (fuel + 1) heapZ
      [0, 0, 0, 21, 222, 173, 190, 239, 0, 0, 0, 0, 0, 0, 0, 1, 97, 0, 0, 0, 7,
       0, 0, 0, 21, 222, 173, 190, 239, 0, 0, 0, 0, 0, 0, 0, 1, 98, 0, 0, 0, 8,
       0, 0, 0, 21, 222, 173, 190, 239, 0, 0, 0, 0, 0, 0, 0, 1, 99, 0, 0, 0, 9]).buf =
      [0, 0, 0, 21, 222, 173, 190, 239, 0, 0, 0, 0, 0, 0, 0, 1, 98, 0, 0, 0, 8,
       0, 0, 0, 21, 222, 173, 190, 239, 0, 0, 0, 0, 0, 0, 0, 1, 99, 0, 0, 0, 9] ∧
    (recAC.read hepConsts (fuel + 1) heapZ
      [0, 0, 0, 21, 222, 173, 190, 239, 0, 0, 0, 0, 0, 0, 0, 1, 97, 0, 0, 0, 7,
       0, 0, 0, 21, 222, 173, 190, 239, 0, 0, 0, 0, 0, 0, 0, 1, 98, 0, 0, 0, 8,
       0, 0, 0, 21, 222, 173, 190, 239, 0, 0, 0, 0, 0, 0, 0, 1, 99, 0, 0, 0, 9]).heap
        blkA.ref = 7 := by
  refine ⟨?_, ?_, ?_⟩ <;> rfl

/-- C9 (the code at a failing input): a header with the marker and a subheader
declaring `NameLen = 0xFFFFFFFF`. `align4(NameLen)` wraps to `0`, so at least
`align4(NameLen)` bytes remain; the copy of 0 bytes succeeds and the slice of
the first `NameLen` bytes panics: no name is looked up. -/
theorem C9_read_nameLen_wrap_panics (fuel : Nat) :
    align4 (get32 hepConsts.order [255, 255, 255, 255]) = 0 ∧
    (recA.read hepConsts (fuel + 1) heapZ
      [0, 0, 0, 16, 222, 173, 190, 239, 0, 0, 0, 0, 255, 255, 255, 255]).status = .panic ∧
    (recA.read hepConsts (fuel + 1) heapZ
      [0, 0, 0, 16, 222, 173, 190, 239, 0, 0, 0, 0, 255, 255, 255, 255]).trace = [] := by
  refine ⟨by decide, ?_, ?_⟩ <;> rfl

/-! ## The compression flag, one call -/

theorem testBit_of_lor_eq {c nc : Nat} (hu : c ||| nc = 2 ^ 32 - 1) (i : Nat) (hi : i < 32) :
    (c.testBit i || nc.testBit i) = true := by
  have : (c ||| nc).testBit i = true := by
    rw [hu, Nat.testBit_two_pow_sub_one]; simpa using hi
  rwa [Nat.testBit_or] at this

theorem testBit_of_land_eq {c nc : Nat} (hd : c &&& nc = 0) (i : Nat) :
    (c.testBit i && nc.testBit i) = false := by
  have : (c &&& nc).testBit i = false := by rw [hd]; simp
  rwa [Nat.testBit_and] at this

theorem testBit_of_lt_32 {o : Nat} (ho : o < 2 ^ 32) (i : Nat) (hi : 32 ≤ i) :
    o.testBit i = false :=
  Nat.testBit_lt_two_pow (lt_of_lt_of_le ho (Nat.pow_le_pow_right (by norm_num) hi))

/-- C11: after `SetCompress(b)`, `Compress()` returns `b`, every bit of
`options` outside the compression mask has the value it had before the call,
and `name`, `unpack` and the blocks mapping are unchanged. -/
theorem C11_setCompress {σ : Type} (K : Consts) (rec : Record σ) (b : Bool)
    (hK : K.WF) (ho : rec.options < 2 ^ 32) :
    (rec.SetCompress K b).Compress K = b ∧
    (∀ i, K.g_opt_compress.testBit i = false →
      (rec.SetCompress K b).options.testBit i = rec.options.testBit i) ∧
    (rec.SetCompress K b).name = rec.name ∧
    (rec.SetCompress K b).unpack = rec.unpack ∧
    (rec.SetCompress K b).blocks = rec.blocks := by
  obtain ⟨_, hc0, hd, hu⟩ := hK
  have hdi := testBit_of_land_eq hd
  have hui := testBit_of_lor_eq hu
  have hoi := testBit_of_lt_32 ho
  refine ⟨?_, ?_, ?_, ?_, ?_⟩
  · cases b
    · have h0 : rec.options &&& K.g_opt_not_compress &&& K.g_opt_compress = 0 := by
        apply Nat.eq_of_testBit_eq
        intro i
        have := hdi i
        simp only [Nat.testBit_and, Nat.zero_testBit]
        cases rec.options.testBit i <;> cases hc : K.g_opt_compress.testBit i <;>
          cases hn : K.g_opt_not_compress.testBit i <;> simp_all
      simp [Record.SetCompress, Record.Compress, h0]
    · have h1 : (rec.options &&& K.g_opt_not_compress ||| K.g_opt_compress) &&&
          K.g_opt_compress = K.g_opt_compress := by
        apply Nat.eq_of_testBit_eq
        intro i
        simp only [Nat.testBit_and, Nat.testBit_or]
        cases rec.options.testBit i <;> cases hc : K.g_opt_compress.testBit i <;>
          cases hn : K.g_opt_not_compress.testBit i <;> simp_all
      simp [Record.SetCompress, Record.Compress, h1, hc0]
  · intro i hci
    have hn : i < 32 → K.g_opt_not_compress.testBit i = true := by
      intro hi
      have := hui i hi
      rw [hci] at this
      simpa using this
    by_cases hi : i < 32
    · cases b <;> simp [Record.SetCompress, Nat.testBit_and, Nat.testBit_or, hci, hn hi]
    · have ho' := hoi i (by omega)
      cases b <;> simp [Record.SetCompress, Nat.testBit_and, Nat.testBit_or, hci, ho']
  · cases b <;> rfl
  · cases b <;> rfl
  · cases b <;> rfl

/-- Witness of C11: the constants `hepConsts`, `options = 6`, `b = true`. -/
theorem C11_setCompress_witness :
    ((⟨[], false, 6, []⟩ : Record Byte).SetCompress hepConsts true).Compress hepConsts = true ∧
    (∀ i, hepConsts.g_opt_compress.testBit i = false →
      ((⟨[], false, 6, []⟩ : Record Byte).SetCompress hepConsts true).options.testBit i =
        (⟨[], false, 6, []⟩ : Record Byte).options.testBit i) ∧
    ((⟨[], false, 6, []⟩ : Record Byte).SetCompress hepConsts true).name =
      (⟨[], false, 6, []⟩ : Record Byte).name ∧
    ((⟨[], false, 6, []⟩ : Record Byte).SetCompress hepConsts true).unpack =
      (⟨[], false, 6, []⟩ : Record Byte).unpack ∧
    ((⟨[], false, 6, []⟩ : Record Byte).SetCompress hepConsts true).blocks =
      (⟨[], false, 6, []⟩ : Record Byte).blocks :=
  C11_setCompress hepConsts ⟨[], false, 6, []⟩ true (by decide) (by decide)

/-! ## `Record.Connect` -/

theorem lookup_mapSet_self {σ : Type} (m : List (Str × Block σ)) (k : Str) (v : Block σ) :
    (mapSet m k v).lookup k = some v := by
  induction m with
  | nil => simp [mapSet, List.lookup]
  | cons a t ih =>
    obtain ⟨k1, v1⟩ := a
    unfold mapSet
    by_cases h : k1 = k
    · simp [h, List.lookup]
    · have hb : (k == k1) = false := by
        simpa using fun e : k = k1 => h e.symm
      simp only [h, if_false, List.lookup, hb]
      exact ih

theorem lookup_mapSet_ne {σ : Type} (m : List (Str × Block σ)) (k k2 : Str) (v : Block σ)
    (hne : k2 ≠ k) : (mapSet m k v).lookup k2 = m.lookup k2 := by
  induction m with
  | nil =>
    have hb : (k2 == k) = false := by simpa using hne
    simp [mapSet, List.lookup, hb]
  | cons a t ih =>
    obtain ⟨k1, v1⟩ := a
    unfold mapSet
    by_cases h : k1 = k
    · subst h
      have hb : (k2 == k1) = false := by simpa using hne
      simp [List.lookup, hb]
    · simp only [h, if_false, List.lookup]
      cases hk : (k2 == k1)
      · exact ih
      · rfl

theorem keys_mapSet {σ : Type} (m : List (Str × Block σ)) (k : Str) (v : Block σ) (x : Str) :
    x ∈ (mapSet m k v).map Prod.fst ↔ x = k ∨ x ∈ m.map Prod.fst := by
  induction m with
  | nil => simp [mapSet]
  | cons a t ih =>
    obtain ⟨k1, v1⟩ := a
    unfold mapSet
    by_cases h : k1 = k
    · subst h
      simp
    · simp only [h, if_false, List.map_cons, List.mem_cons, ih]
      tauto

theorem nodup_mapSet {σ : Type} (m : List (Str × Block σ)) (k : Str) (v : Block σ)
    (hnd : (m.map Prod.fst).Nodup) : ((mapSet m k v).map Prod.fst).Nodup := by
  induction m with
  | nil => simp [mapSet]
  | cons a t ih =>
    obtain ⟨k1, v1⟩ := a
    simp only [List.map_cons, List.nodup_cons] at hnd
    unfold mapSet
    by_cases h : k1 = k
    · subst h
      simpa using hnd
    · simp only [h, if_false, List.map_cons, List.nodup_cons, keys_mapSet]
      refine ⟨?_, ih hnd.2⟩
      intro hx
      rcases hx with hx | hx
      · first
          | exact h hx
          | exact hx.elim
      · exact hnd.1 hx


/-- The type switch returns an error exactly on a non-nil value that is no
`Block`, no `BinaryCodec` and no pointer, and it panics exactly on the nil
interface. -/
theorem connectBlock_error_iff {σ : Type} (ptr : Handle σ) :
    ((∃ e, connectBlock ptr = .error (.error e)) ↔
      (ptr.asBlock = none ∧ ptr.asCodec = none ∧ ptr.rtNil = false ∧ ptr.kindPtr = false)) ∧
    (connectBlock ptr = .error .panic ↔
      (ptr.asBlock = none ∧ ptr.asCodec = none ∧ ptr.rtNil = true)) := by
  unfold connectBlock
  cases hb : ptr.asBlock <;> cases hc : ptr.asCodec <;> cases hn : ptr.rtNil <;>
    cases hp : ptr.kindPtr <;> simp

/-- The outcomes of `Connect` over every handle: an error is returned exactly
for a non-nil value that is no `Block`, no `BinaryCodec` and no pointer; the
call panics exactly for the nil interface; and unless the call succeeds the
record is what it was before. -/
theorem connect_outcome {σ : Type} (rec : Record σ) (name : Str) (ptr : Handle σ) :
    ((∃ e, (rec.Connect name ptr).1 = some (.error e)) ↔
      (ptr.asBlock = none ∧ ptr.asCodec = none ∧ ptr.rtNil = false ∧ ptr.kindPtr = false)) ∧
    ((rec.Connect name ptr).1 = some .panic ↔
      (ptr.asBlock = none ∧ ptr.asCodec = none ∧ ptr.rtNil = true)) ∧
    ((rec.Connect name ptr).1 = none ∨ (rec.Connect name ptr).2 = rec) := by
  unfold Record.Connect connectBlock
  cases hb : ptr.asBlock <;> cases hc : ptr.asCodec <;> cases hn : ptr.rtNil <;>
    cases hp : ptr.kindPtr <;> simp

/-- C12: `Connect(name, nil)` does not return an error: the nil interface
satisfies neither the `Block` contract nor the `BinaryCodec` capability and is
no pointer, and the call panics at `rt.Kind()` with the record as it was. For
every handle, an error is returned exactly when the handle is non-nil,
satisfies neither contract and is no pointer, and a call that returns an error
or panics leaves the record (its blocks mapping, `name`, `unpack`, `options`)
what it was before. -/
theorem C12_connect_nil_panics {σ : Type} (rec : Record σ) (name : Str) (ptr : Handle σ) :
    (nilHandle.asBlock = none ∧ nilHandle.asCodec = none ∧ nilHandle.rtNil = true ∧
      (recA.Connect [110] nilHandle).1 = some Failure.panic ∧
      (∀ e, (recA.Connect [110] nilHandle).1 ≠ some (Failure.error e)) ∧
      (recA.Connect [110] nilHandle).2 = recA) ∧
    ((∃ e, (rec.Connect name ptr).1 = some (.error e)) ↔
      (ptr.asBlock = none ∧ ptr.asCodec = none ∧ ptr.rtNil = false ∧ ptr.kindPtr = false)) ∧
    ((rec.Connect name ptr).1 = some .panic ↔
      (ptr.asBlock = none ∧ ptr.asCodec = none ∧ ptr.rtNil = true)) ∧
    ((rec.Connect name ptr).1 = none ∨ (rec.Connect name ptr).2 = rec) := by
  refine ⟨⟨rfl, rfl, rfl, rfl, ?_, rfl⟩, ?_⟩
  · intro e he
    have h1 : (recA.Connect [110] nilHandle).1 = some Failure.panic := rfl
    rw [h1] at he
    cases he
  · unfold Record.Connect connectBlock
    cases hb : ptr.asBlock <;> cases hc : ptr.asCodec <;> cases hn : ptr.rtNil <;>
      cases hp : ptr.kindPtr <;> simp

/-- C13: after a successful `Connect(n, h)` the mapping binds `n` to the block
derived from `h`, whatever `n` was bound to before; every other name is bound
as before; the names of the mapping are still pairwise distinct; when `h`
satisfies the `Block` contract the bound block is `h` itself; `name`,
`unpack` and `options` are unchanged. -/
theorem C13_connect_binds {σ : Type} (rec : Record σ) (n : Str) (ptr : Handle σ)
    (hok : (rec.Connect n ptr).1 = none) (hnd : (rec.blocks.map Prod.fst).Nodup) :
    ∃ b, connectBlock ptr = .ok b ∧
      (rec.Connect n ptr).2.lookup n = some b ∧
      (∀ m, m ≠ n → (rec.Connect n ptr).2.lookup m = rec.lookup m) ∧
      ((rec.Connect n ptr).2.blocks.map Prod.fst).Nodup ∧
      (∀ b0, ptr.asBlock = some b0 → b = b0) ∧
      (rec.Connect n ptr).2.name = rec.name ∧
      (rec.Connect n ptr).2.unpack = rec.unpack ∧
      (rec.Connect n ptr).2.options = rec.options := by
  unfold Record.Connect at hok ⊢
  cases hcb : connectBlock ptr with
  | error e => rw [hcb] at hok; simp at hok
  | ok b =>
    refine ⟨b, rfl, ?_, ?_, ?_, ?_, rfl, rfl, rfl⟩
    · simp only [Record.lookup]
      exact lookup_mapSet_self _ _ _
    · intro m hm
      simp only [Record.lookup]
      exact lookup_mapSet_ne _ _ _ _ hm
    · exact nodup_mapSet _ _ _ hnd
    · intro b0 hb0
      unfold connectBlock at hcb
      rw [hb0] at hcb
      simp only [Except.ok.injEq] at hcb
      exact hcb.symm

/-- Witness of C13: the block `blkB` connected under `"b"` to the record `recA`. -/
theorem C13_connect_binds_witness :
    ∃ b, connectBlock blockHandle = .ok b ∧
      (recA.Connect [98] blockHandle).2.lookup [98] = some b ∧
      (∀ m, m ≠ [98] → (recA.Connect [98] blockHandle).2.lookup m = recA.lookup m) ∧
      ((recA.Connect [98] blockHandle).2.blocks.map Prod.fst).Nodup ∧
      (∀ b0, blockHandle.asBlock = some b0 → b = b0) ∧
      (recA.Connect [98] blockHandle).2.name = recA.name ∧
      (recA.Connect [98] blockHandle).2.unpack = recA.unpack ∧
      (recA.Connect [98] blockHandle).2.options = recA.options :=
  C13_connect_binds recA [98] blockHandle (by rfl) (by decide)

/-- C14 (as stated, refuted): a value of the type `T` that satisfies
`BinaryCodec` only, connected under the name `"n"`: the adapter bound to `"n"`
carries the name `"T"`, not `"n"`. -/
theorem C14_connect_codec_name_not_registered :
    ((recA.Connect [110] codecHandle).2.lookup [110]).map Block.name = some [84] ∧
    ((recA.Connect [110] codecHandle).2.lookup [110]).map Block.name ≠ some [110] := by
  constructor
  · rfl
  · decide

/-- C14 (amended): for a handle that satisfies `BinaryCodec` but not `Block`,
`Connect(n, h)` succeeds and binds `n` to the adapter around `h` whose
version is 0 and whose carried name is the name of the type of `h`
(`reflect.TypeOf(h).Name()`). -/
theorem C14_connect_codec {σ : Type} (rec : Record σ) (n : Str) (ptr : Handle σ)
    (c : BinaryCodec σ) (hb : ptr.asBlock = none) (hc : ptr.asCodec = some c) :
    (rec.Connect n ptr).1 = none ∧
    (rec.Connect n ptr).2.lookup n = some (mBlockImpl c 0 ptr.typeName) ∧
    (mBlockImpl c 0 ptr.typeName).version = 0 ∧
    (mBlockImpl c 0 ptr.typeName).name = ptr.typeName := by
  have hcb : connectBlock ptr = .ok (mBlockImpl c 0 ptr.typeName) := by
    simp [connectBlock, hb, hc]
  refine ⟨?_, ?_, rfl, rfl⟩
  · simp [Record.Connect, hcb]
  · simp only [Record.Connect, hcb, Record.lookup]
    exact lookup_mapSet_self _ _ _

/-- Witness of C14 (amended): the handle `codecHandle` connected under `"n"`. -/
theorem C14_connect_codec_witness :
    (recA.Connect [110] codecHandle).1 = none ∧
    (recA.Connect [110] codecHandle).2.lookup [110] =
      some (mBlockImpl ⟨0, (byteBlock [] 0).marshal, (byteBlock [] 0).unmarshal⟩ 0
        codecHandle.typeName) ∧
    (mBlockImpl ⟨0, (byteBlock [] 0).marshal, (byteBlock [] 0).unmarshal⟩ 0
      codecHandle.typeName).version = 0 ∧
    (mBlockImpl ⟨0, (byteBlock [] 0).marshal, (byteBlock [] 0).unmarshal⟩ 0
      codecHandle.typeName).name = codecHandle.typeName :=
  C14_connect_codec recA [110] codecHandle
    ⟨0, (byteBlock [] 0).marshal, (byteBlock [] 0).unmarshal⟩ rfl rfl

/-! ## `Record.write`: a failing marshal -/

/-- An envelope is appended to the destination as it is. -/
theorem writeEnvelope_nil {σ : Type} (K : Consts) (k : Str) (blk : Block σ) (b dst : List Byte) :
    writeEnvelope K k blk b dst = dst ++ writeEnvelope K k blk b [] := by
  rw [writeEnvelope_eq K k blk b dst, writeEnvelope_eq K k blk b []]
  simp

/-- C15: when the marshal of a visited block fails with `e` and the marshals
of the blocks visited before it (`pre`) succeed, `Record.write` returns
exactly `e`, and the destination holds its previous contents followed by the
complete envelopes of the blocks of `pre`, in order: nothing is rolled back,
no byte of the failing block's envelope is appended, and nothing depends on
the blocks after the failing one (`post`), which are not visited. -/
theorem C15_write_marshal_failure {σ : Type} (K : Consts) (rec : Record σ) (h : Heap σ)
    (pre post : List (Str × Block σ)) (ps : List (List Byte)) (k : Str) (blk : Block σ)
    (dst : List Byte) (e : Err)
    (hpre : List.Forall₂ (fun x p => x.2.marshal (h x.2.ref) = .ok p) pre ps)
    (hfail : blk.marshal (h blk.ref) = .error e) :
    rec.write K (pre ++ (k, blk) :: post) h dst =
      ⟨some e, dst ++ (List.zipWith (fun x p => writeEnvelope K x.1 x.2 p []) pre ps).flatten⟩ := by
  induction hpre generalizing dst with
  | nil => simp [Record.write, writeLoop, hfail]
  | @cons x p pre1 ps1 hx _ ih =>
    obtain ⟨k1, b1⟩ := x
    have hx1 : b1.marshal (h b1.ref) = .ok p := hx
    have := ih (writeEnvelope K k1 b1 p dst)
    simp only [Record.write] at this ⊢
    show writeLoop K h ((k1, b1) :: (pre1 ++ (k, blk) :: post)) dst = _
    rw [writeLoop]
    simp only [hx1]
    rw [this, writeEnvelope_nil K k1 b1 p dst]
    simp only [List.zipWith_cons_cons, List.flatten_cons, List.append_assoc]

/-- Witness of C15: `"a"` marshals, the next block fails, `"b"` is not visited. -/
theorem C15_write_marshal_failure_witness :
    recAB.write hepConsts ([([97], blkA)] ++ ([102], blkFail) :: [([98], blkB)]) heapW [1, 2] =
      ⟨some (.codec 1), [1, 2] ++ (List.zipWith
        (fun x p => writeEnvelope hepConsts x.1 x.2 p []) [([97], blkA)] [[7]]).flatten⟩ :=
  C15_write_marshal_failure hepConsts recAB heapW [([97], blkA)] [([98], blkB)] [[7]] [102]
    blkFail [1, 2] (.codec 1) (List.Forall₂.cons (by rfl) List.Forall₂.nil) rfl

/-! ## The `RunHeader` example -/

theorem runHeader_unmarshal_example (o : ByteOrder) (s : RunHeader) :
    RunHeader.unmarshal o s (put64 o 7 ++ put64 o 42 ++ put64 o 1) = (none, ⟨7, 42, 1⟩, []) := by
  cases o <;> rfl

theorem put64_length (o : ByteOrder) (x : Int) : (put64 o x).length = 8 := by
  cases o <;> simp [put64, bytes64BE]

theorem evtRec_blocks (o : ByteOrder) :
    (evtRec o).blocks = [(headerName, blockImpl (runHeaderPtr o 0) 0 [])] := rfl


theorem write_single_err {σ : Type} (K : Consts) (rec : Record σ) (h : Heap σ) (k : Str)
    (blk : Block σ) (p dst : List Byte) (hm : blk.marshal (h blk.ref) = .ok p) :
    (rec.write K [(k, blk)] h dst).err = none := by
  simp only [Record.write, writeLoop, hm]

/-- C16: the record `"evt"` with the block `"header"` connected to a
`RunHeader {7, 42, 1}` (three 64-bit integers in declaration order):
`Record.write` returns no error and produces 48 bytes, the first 8 of them
`Len = 48` and the block marker; `Record.read` of that buffer into the record
with `"header"` connected to a zeroed `RunHeader` returns no error and leaves
that `RunHeader` equal to `{7, 42, 1}`. -/
theorem C16_runHeader_roundtrip (K : Consts) (fuel : Nat) (hK : K.WF) :
    (evtRec0.Connect headerName (runHeaderPtr K.order 0)).1 = none ∧
    (evtRec K.order).name = evtName ∧
    (evtRec K.order).blocks.map Prod.fst = [headerName] ∧
    ((evtRec K.order).write K (evtRec K.order).blocks heapRun []).err = none ∧
    ((evtRec K.order).write K (evtRec K.order).blocks heapRun []).buf.length = 48 ∧
    ((evtRec K.order).write K (evtRec K.order).blocks heapRun []).buf.take 8 =
      put32 K.order 48 ++ put32 K.order K.g_mark_block ∧
    heapRunZ 0 = ⟨0, 0, 0⟩ ∧
    ((evtRec K.order).read K (fuel + 1) heapRunZ
      ((evtRec K.order).write K (evtRec K.order).blocks heapRun []).buf).status = .ok ∧
    ((evtRec K.order).read K (fuel + 1) heapRunZ
      ((evtRec K.order).write K (evtRec K.order).blocks heapRun []).buf).heap 0 =
        ⟨7, 42, 1⟩ := by
  have hblocks := evtRec_blocks K.order
  have hm : (blockImpl (runHeaderPtr K.order 0) 0 []).marshal
      (heapRun (blockImpl (runHeaderPtr K.order 0) 0 []).ref) =
      .ok (put64 K.order 7 ++ put64 K.order 42 ++ put64 K.order 1) := rfl
  have hk : headerName.length + 3 < 2 ^ 32 := by decide
  have hal : align4 headerName.length = 8 := by decide
  have hst := write_cons_buf K (evtRec K.order) heapRun headerName
    (blockImpl (runHeaderPtr K.order 0) 0 []) [] _ hm hk
  have hplen : (put64 K.order 7 ++ put64 K.order 42 ++ put64 K.order 1).length = 24 := by
    simp only [List.length_append, put64_length]
  rw [hal, hplen] at hst
  have hrt := roundtrip_single_block K (evtRec K.order) (evtRec K.order).blocks heapRun heapRunZ
    fuel headerName (blockImpl (runHeaderPtr K.order 0) 0 []) _ hK hblocks (List.Perm.refl _)
    hm hk (fun s => runHeader_unmarshal_example K.order s)
  rw [hblocks] at hrt ⊢
  refine ⟨?_, ?_, ?_, ?_, ?_, ?_, ?_, ?_, ?_⟩
  · rfl
  · rfl
  · rfl
  · exact write_single_err K _ heapRun _ _ _ [] hm
  · rw [hst]
    simp only [List.length_append, put32_length, put64_length, List.length_replicate]
    rfl
  · rw [hst, ← List.append_assoc]
    exact List.take_left' (by simp only [List.length_append, put32_length])
  · rfl
  · rw [hrt]
  · rw [hrt]
    rfl

/-- Witness of C16: the constants `hepConsts`. -/
theorem C16_runHeader_roundtrip_witness :
    (evtRec0.Connect headerName (runHeaderPtr hepConsts.order 0)).1 = none ∧
    (evtRec hepConsts.order).name = evtName ∧
    (evtRec hepConsts.order).blocks.map Prod.fst = [headerName] ∧
    ((evtRec hepConsts.order).write hepConsts (evtRec hepConsts.order).blocks heapRun []).err =
      none ∧
    ((evtRec hepConsts.order).write hepConsts (evtRec hepConsts.order).blocks
      heapRun []).buf.length = 48 ∧
    ((evtRec hepConsts.order).write hepConsts (evtRec hepConsts.order).blocks
      heapRun []).buf.take 8 =
      put32 hepConsts.order 48 ++ put32 hepConsts.order hepConsts.g_mark_block ∧
    heapRunZ 0 = ⟨0, 0, 0⟩ ∧
    ((evtRec hepConsts.order).read hepConsts (0 + 1) heapRunZ
      ((evtRec hepConsts.order).write hepConsts (evtRec hepConsts.order).blocks
        heapRun []).buf).status = .ok ∧
    ((evtRec hepConsts.order).read hepConsts (0 + 1) heapRunZ
      ((evtRec hepConsts.order).write hepConsts (evtRec hepConsts.order).blocks
        heapRun []).buf).heap 0 = ⟨7, 42, 1⟩ :=
  C16_runHeader_roundtrip hepConsts 0 (by decide)

/-! ## The resynchronisation step: where the cursor is left -/

theorem ofNat_toNat_byte (b : Byte) : UInt8.ofNat b.toNat = b := by
  cases b with
  | mk v =>
    simp [UInt8.toNat, UInt8.ofNat, Fin.ofNat]

theorem toNat_lt_byte (b : Byte) : b.toNat < 256 := by
  cases b with
  | mk v => exact v.isLt

theorem bytesBE_wordBE (a b c d : Byte) : bytesBE (u32 (wordBE [a, b, c, d])) = [a, b, c, d] := by
  have ha := toNat_lt_byte a
  have hb := toNat_lt_byte b
  have hc := toNat_lt_byte c
  have hd := toNat_lt_byte d
  have e1 : u32 (wordBE [a, b, c, d]) / 2 ^ 24 % 256 = a.toNat := by
    simp only [wordBE, u32]; omega
  have e2 : u32 (wordBE [a, b, c, d]) / 2 ^ 16 % 256 = b.toNat := by
    simp only [wordBE, u32]; omega
  have e3 : u32 (wordBE [a, b, c, d]) / 2 ^ 8 % 256 = c.toNat := by
    simp only [wordBE, u32]; omega
  have e4 : u32 (wordBE [a, b, c, d]) % 256 = d.toNat := by
    simp only [wordBE, u32]; omega
  simp only [bytesBE, e1, e2, e3, e4, ofNat_toNat_byte]

/-- Four bytes are the encoding of the word they decode to. -/
theorem put32_get32 (o : ByteOrder) (bs : List Byte) (h : bs.length = 4) :
    put32 o (get32 o bs) = bs := by
  match bs, h with
  | [a, b, c, d], _ =>
    cases o
    · simp only [put32, get32, bytesBE_wordBE]
    · simp only [put32, get32, List.reverse_cons, List.reverse_nil, List.nil_append,
        List.cons_append, bytesBE_wordBE]

/-- What `bytes.Index` returns: `-1`, or the least offset at which the pattern
starts. -/
theorem indexFrom_spec (sep : List Byte) :
    ∀ (s : List Byte) (i : Nat), indexFrom sep s i = -1 ∨
      ∃ j : Nat, indexFrom sep s i = ((i + j : Nat) : Int) ∧
        sep.isPrefixOf (s.drop j) = true ∧ ∀ j2, j2 < j → sep.isPrefixOf (s.drop j2) = false := by
  intro s
  induction s with
  | nil =>
    intro i
    by_cases h : sep = []
    · right
      exact ⟨0, by simp [indexFrom, h], by simp [h], by intro j2 hj2; omega⟩
    · left
      simp [indexFrom, h]
  | cons b t ih =>
    intro i
    by_cases h : sep.isPrefixOf (b :: t) = true
    · right
      exact ⟨0, by simp [indexFrom, h], by simpa using h, by intro j2 hj2; omega⟩
    · have h' : sep.isPrefixOf (b :: t) = false := Bool.eq_false_iff.mpr h
      have hidx : indexFrom sep (b :: t) i = indexFrom sep t (i + 1) := by
        simp [indexFrom, h']
      rcases ih (i + 1) with hm | ⟨j, hj, hp, hmin⟩
      · left; rw [hidx, hm]
      · right
        refine ⟨j + 1, ?_, ?_, ?_⟩
        · rw [hidx, hj]; push_cast; omega
        · simpa using hp
        · intro j2 hj2
          cases j2 with
          | zero => simpa using h'
          | succ j3 =>
            simp only [List.drop_succ_cons]
            exact hmin j3 (by omega)

/-- An iteration on a buffer whose second word is not the marker. -/
theorem readLoop_missing_marker {σ : Type} (K : Consts) (rec : Record σ) (fuel : Nat)
    (h : Heap σ) (buf : List Byte) (tr : List Event) (hlen : 8 ≤ buf.length)
    (htyp : get32 K.order ((buf.drop 4).take 4) ≠ K.g_mark_block) :
    readLoop K rec (fuel + 1) h buf tr = ⟨.error .ErrRecordNoBlockMarker, buf.drop 8, h, tr⟩ := by
  have h0 : buf.length > 0 := by omega
  have h8 : ¬ buf.length < 8 := by omega
  simp [readLoop, breadHeader, h0, h8, htyp]

/-- Where the resynchronisation step finds the marker at an offset `n` of 8 or
more, it leaves the cursor at `n - 8`, four bytes before the header that holds
the marker, and the next iteration returns `ErrRecordNoBlockMarker`. -/
theorem resync_misaligned {σ : Type} (K : Consts) (rec : Record σ) (fuel : Nat)
    (h : Heap σ) (rest : List Byte) (tr : List Event)
    (hidx : 8 ≤ bytesIndex rest (g_mark_block_b K)) :
    ∃ n : Nat, bytesIndex rest (g_mark_block_b K) = (n : Int) ∧ 8 ≤ n ∧
      g_mark_block_b K <+: rest.drop n ∧
      bufNext rest (bytesIndex rest (g_mark_block_b K) - 8) = some (rest.drop (n - 8)) ∧
      readLoop K rec (fuel + 1) h (rest.drop (n - 8)) tr =
        ⟨.error .ErrRecordNoBlockMarker, rest.drop n, h, tr⟩ := by
  rcases indexFrom_spec (g_mark_block_b K) rest 0 with hm | ⟨j, hj, hp, hmin⟩
  · simp only [bytesIndex] at hidx
    omega
  · have hj' : bytesIndex rest (g_mark_block_b K) = (j : Int) := by
      simp only [bytesIndex, hj]; push_cast; omega
    have h8 : 8 ≤ j := by omega
    have hpre : g_mark_block_b K <+: rest.drop j := List.isPrefixOf_iff_prefix.mp hp
    have hlen : j + 4 ≤ rest.length := by
      have := hpre.length_le
      have h4 : (g_mark_block_b K).length = 4 := put32_length _ _
      rw [List.length_drop] at this
      omega
    refine ⟨j, hj', h8, hpre, ?_, ?_⟩
    · rw [hj']
      have e : ((j : Int) - 8) = ((j - 8 : Nat) : Int) := by omega
      have hc : ¬ ((j - 8 : Nat) : Int) > (rest.length : Int) := by omega
      have hn : ¬ ((j - 8 : Nat) : Int) < 0 := by omega
      simp only [bufNext, e, hc, hn, if_false, Int.toNat_ofNat]
    · have hbl : 8 ≤ (rest.drop (j - 8)).length := by
        rw [List.length_drop]; omega
      have htyp : get32 K.order (((rest.drop (j - 8)).drop 4).take 4) ≠ K.g_mark_block := by
        intro hg
        have hd : (rest.drop (j - 8)).drop 4 = rest.drop (j - 4) := by
          rw [List.drop_drop]; congr 1; omega
        rw [hd] at hg
        have hl4 : ((rest.drop (j - 4)).take 4).length = 4 := by
          rw [List.length_take, List.length_drop]; omega
        have hx := put32_get32 K.order _ hl4
        rw [hg] at hx
        have hpf : g_mark_block_b K <+: rest.drop (j - 4) := by
          unfold g_mark_block_b
          rw [hx]
          exact List.take_prefix _ _
        have := hmin (j - 4) (by omega)
        rw [List.isPrefixOf_iff_prefix.mpr hpf] at this
        exact absurd this (by simp)
      rw [readLoop_missing_marker K rec fuel h _ tr hbl htyp, List.drop_drop]
      congr 2
      omega

/-- A block was decoded and the marker of the next envelope is found at an
offset of 8 or more: the read ends with `ErrRecordNoBlockMarker`. -/
theorem read_resync_misaligned {σ : Type} (K : Consts) (rec : Record σ) (fuel : Nat)
    (h : Heap σ) (buf : List Byte) (NL : Nat) (blk : Block σ) (s : σ) (rest : List Byte)
    (hNL : get32 K.order ((buf.drop 12).take 4) = NL)
    (htyp : get32 K.order ((buf.drop 4).take 4) = K.g_mark_block)
    (hlen : 16 + align4 NL ≤ buf.length)
    (hname : NL ≤ align4 NL)
    (hknown : rec.lookup ((buf.drop 16).take NL) = some blk)
    (hun : blk.unmarshal (h blk.ref) (buf.drop (16 + align4 NL)) = (none, s, rest))
    (hidx : 8 ≤ bytesIndex rest (g_mark_block_b K)) :
    (rec.read K (fuel + 2) h buf).status = .error .ErrRecordNoBlockMarker := by
  obtain ⟨n, hn, h8, hpre, hnext, hloop⟩ := resync_misaligned K rec fuel
    (Function.update h blk.ref s) rest
    [Event.lookup ((buf.drop 16).take NL) (buf.drop (16 + align4 NL)),
     Event.unmarshal ((buf.drop 16).take NL) (buf.drop (16 + align4 NL))] hidx
  have hpos : bytesIndex rest (g_mark_block_b K) > 0 := by omega
  have hl : rest.length > 0 := by
    have := hpre.length_le
    have h4 : (g_mark_block_b K).length = 4 := put32_length _ _
    rw [List.length_drop] at this
    omega
  rw [read_known K rec (fuel + 1) h buf NL blk hNL htyp hlen hname hknown, hun]
  simp only [hl, hpos, if_true, hnext, hloop]

/-- A block was decoded and the marker is found at an offset between 1 and 7:
the resynchronisation step calls `Next` with a negative count and panics. -/
theorem read_resync_near_panics {σ : Type} (K : Consts) (rec : Record σ) (fuel : Nat)
    (h : Heap σ) (buf : List Byte) (NL : Nat) (blk : Block σ) (s : σ) (rest : List Byte)
    (hNL : get32 K.order ((buf.drop 12).take 4) = NL)
    (htyp : get32 K.order ((buf.drop 4).take 4) = K.g_mark_block)
    (hlen : 16 + align4 NL ≤ buf.length)
    (hname : NL ≤ align4 NL)
    (hknown : rec.lookup ((buf.drop 16).take NL) = some blk)
    (hun : blk.unmarshal (h blk.ref) (buf.drop (16 + align4 NL)) = (none, s, rest))
    (hrest : rest.length > 0)
    (hpos : 0 < bytesIndex rest (g_mark_block_b K))
    (hlt : bytesIndex rest (g_mark_block_b K) < 8) :
    (rec.read K (fuel + 1) h buf).status = .panic := by
  have hneg : bufNext rest (bytesIndex rest (g_mark_block_b K) - 8) = none :=
    bufNext_neg _ _ (by omega)
  have hpos' : bytesIndex rest (g_mark_block_b K) > 0 := hpos
  rw [read_known K rec fuel h buf NL blk hNL htyp hlen hname hknown, hun]
  simp only [hrest, hpos', if_true, hneg]

/-- C17 (the code at failing inputs): where the next envelope follows the
decoded block directly, the marker is found at `idx = 4` and the step calls
`buf.Next(-4)`, which panics: the number of bytes to discard is negative.
Where 4 stray bytes precede the next envelope, the marker is found at
`idx = 8` and the step discards `8 - 8 = 0` bytes: the cursor is at the stray
bytes, 4 bytes before the header that holds the marker, the next 8 bytes read
are not that header, and the read ends with `ErrRecordNoBlockMarker`; the
second block is not decoded. -/
theorem C17_resync_offset_misaligned (fuel : Nat) :
    bytesIndex [0, 0, 0, 21, 222, 173, 190, 239, 0, 0, 0, 0, 0, 0, 0, 1, 98, 0, 0, 0, 9]
      (g_mark_block_b hepConsts) = 4 ∧
    bufNext [0, 0, 0, 21, 222, 173, 190, 239, 0, 0, 0, 0, 0, 0, 0, 1, 98, 0, 0, 0, 9] (4 - 8) =
      none ∧
    bytesIndex [1, 2, 3, 4, 0, 0, 0, 21, 222, 173, 190, 239, 0, 0, 0, 0, 0, 0, 0, 1, 98, 0, 0, 0, 9]
      (g_mark_block_b hepConsts) = 8 ∧
    bufNext [1, 2, 3, 4, 0, 0, 0, 21, 222, 173, 190, 239, 0, 0, 0, 0, 0, 0, 0, 1, 98, 0, 0, 0, 9]
        (8 - 8) =
      some [1, 2, 3, 4, 0, 0, 0, 21, 222, 173, 190, 239, 0, 0, 0, 0, 0, 0, 0, 1, 98, 0, 0, 0, 9] ∧
    (recAB.read hepConsts (fuel + 2) heapZ
      [0, 0, 0, 21, 222, 173, 190, 239, 0, 0, 0, 0, 0, 0, 0, 1, 97, 0, 0, 0, 7,
       1, 2, 3, 4,
       0, 0, 0, 21, 222, 173, 190, 239, 0, 0, 0, 0, 0, 0, 0, 1, 98, 0, 0, 0, 9]).status =
      .error .ErrRecordNoBlockMarker ∧
    (recAB.read hepConsts (fuel + 2) heapZ
      [0, 0, 0, 21, 222, 173, 190, 239, 0, 0, 0, 0, 0, 0, 0, 1, 97, 0, 0, 0, 7,
       1, 2, 3, 4,
       0, 0, 0, 21, 222, 173, 190, 239, 0, 0, 0, 0, 0, 0, 0, 1, 98, 0, 0, 0, 9]).heap
        blkB.ref = 0 := by
  refine ⟨by decide, by decide, by decide, by decide, ?_, ?_⟩ <;> rfl

/-- The 32-bit alignment of the three largest name lengths wraps to 0. -/
theorem align4_wrap (n : Nat) (h1 : 2 ^ 32 - 3 ≤ n) (h2 : n < 2 ^ 32) : align4 n = 0 := by
  unfold align4 u32
  omega

/-- C18 (the code at a failing input): `NameLen = 2^32 - 3` is read from the
subheader; `align4(NameLen)` wraps to `0`, so `NameLen <= align4(NameLen)`
fails, and `Record.read`, having copied 0 bytes, panics when it slices the
first `NameLen` bytes of them. -/
theorem C18_nameLen_exceeds_align4 (fuel : Nat) :
    get32 hepConsts.order [255, 255, 255, 253] = 2 ^ 32 - 3 ∧
    align4 (2 ^ 32 - 3) = 0 ∧
    ¬ (2 ^ 32 - 3 ≤ align4 (2 ^ 32 - 3)) ∧
    (recA.read hepConsts (fuel + 1) heapZ
      [0, 0, 0, 21, 222, 173, 190, 239, 0, 0, 0, 0, 255, 255, 255, 253, 97, 0, 0, 0, 7]).status =
      .panic := by
  refine ⟨by decide, by decide, by decide, ?_⟩
  rfl

/-! ## Termination of the read loop -/

/-- The events of a run are appended to the trace it starts with; nothing
else depends on that trace. -/
theorem readLoop_append {σ : Type} (K : Consts) (rec : Record σ) :
    ∀ (fuel : Nat) (h : Heap σ) (buf : List Byte) (tr1 tr2 : List Event),
      readLoop K rec fuel h buf (tr1 ++ tr2) =
        ⟨(readLoop K rec fuel h buf tr2).status, (readLoop K rec fuel h buf tr2).buf,
          (readLoop K rec fuel h buf tr2).heap, tr1 ++ (readLoop K rec fuel h buf tr2).trace⟩ := by
  intro fuel
  induction fuel with
  | zero =>
    intro h buf tr1 tr2
    unfold readLoop
    split <;> simp
  | succ n ih =>
    intro h buf tr1 tr2
    unfold readLoop
    simp only [copyN, bufNext_length]
    repeat' split
    all_goals first
      | rfl
      | (simp only [List.append_assoc] <;> exact ih _ _ _ _)

/-- A run from any trace is the run from the empty trace, its events appended. -/
theorem readLoop_shift {σ : Type} (K : Consts) (rec : Record σ) (fuel : Nat) (h : Heap σ)
    (buf : List Byte) (tr : List Event) :
    readLoop K rec fuel h buf tr =
      ⟨(rec.read K fuel h buf).status, (rec.read K fuel h buf).buf,
        (rec.read K fuel h buf).heap, tr ++ (rec.read K fuel h buf).trace⟩ := by
  have := readLoop_append K rec fuel h buf tr []
  rw [List.append_nil] at this
  exact this


/-- A block found under a name is an entry of the map. -/
theorem lookup_mem {σ : Type} (l : List (Str × Block σ)) (k : Str) (v : Block σ)
    (h : l.lookup k = some v) : (k, v) ∈ l := by
  induction l with
  | nil => simp [List.lookup] at h
  | cons a t ih =>
    obtain ⟨k1, v1⟩ := a
    simp only [List.lookup] at h
    cases hk : (k == k1) with
    | true =>
      rw [hk] at h
      simp only [Option.some.injEq] at h
      have : k = k1 := by simpa using hk
      subst this
      subst h
      exact List.mem_cons_self _ _
    | false =>
      rw [hk] at h
      exact List.mem_cons_of_mem _ (ih h)

/-- `Next` never makes the buffer longer. -/
theorem bufNext_length_le (b b5 : List Byte) (n : Int) (h : bufNext b n = some b5) :
    b5.length ≤ b.length := by
  unfold bufNext at h
  dsimp only at h
  split_ifs at h
  all_goals first
    | (cases h; done)
    | (injection h with h; rw [← h, List.length_drop]; omega)

/-- An iteration on an envelope whose name is not connected. -/
theorem read_unknown {σ : Type} (K : Consts) (rec : Record σ) (fuel : Nat)
    (h : Heap σ) (buf : List Byte)
    (htyp : get32 K.order ((buf.drop 4).take 4) = K.g_mark_block)
    (hlen : 16 + align4 (get32 K.order ((buf.drop 12).take 4)) ≤ buf.length)
    (hname : get32 K.order ((buf.drop 12).take 4) ≤ align4 (get32 K.order ((buf.drop 12).take 4)))
    (hunk : rec.lookup ((buf.drop 16).take (get32 K.order ((buf.drop 12).take 4))) = none) :
    rec.read K (fuel + 1) h buf =
      ⟨.ok, [], h, [Event.lookup ((buf.drop 16).take (get32 K.order ((buf.drop 12).take 4)))
        (buf.drop (16 + align4 (get32 K.order ((buf.drop 12).take 4))))]⟩ := by
  have h0 : buf.length > 0 := by omega
  have h8 : ¬ buf.length < 8 := by omega
  have h16 : ¬ (buf.drop 8).length < 8 := by rw [List.length_drop]; omega
  have hal : ¬ (buf.drop 16).length < align4 (get32 K.order ((buf.drop 12).take 4)) := by
    rw [List.length_drop]; omega
  have hmin : min (align4 (get32 K.order ((buf.drop 12).take 4))) (buf.drop 16).length =
      align4 (get32 K.order ((buf.drop 12).take 4)) := by rw [List.length_drop]; omega
  have hmin2 : min (get32 K.order ((buf.drop 12).take 4))
      (align4 (get32 K.order ((buf.drop 12).take 4))) = get32 K.order ((buf.drop 12).take 4) := by
    omega
  simp [-List.length_drop, Record.read, readLoop, breadHeader, breadData, copyN, bufNext_length,
    readLoop_nil, h0, h8, h16, htyp, hal, hmin, Nat.not_lt.mpr hname, List.take_take, hmin2, hunk,
    Nat.add_comm]

/-- One iteration of the read loop, when no `UnmarshalBinary` leaves the
buffer longer than it found it: either the call ends, with a result that does
not depend on the fuel left, or the loop goes on with at least 16 bytes
fewer. -/
theorem read_iteration {σ : Type} (K : Consts) (rec : Record σ) (h : Heap σ) (buf : List Byte)
    (hun : ∀ k blk, (k, blk) ∈ rec.blocks →
      ∀ s b, (blk.unmarshal s b).2.2.length ≤ b.length) :
    (∃ r : ReadResult σ, r.status ≠ .running ∧ ∀ f, rec.read K (f + 1) h buf = r) ∨
    (∃ h2 b2 tr2, b2.length + 16 ≤ buf.length ∧
      ∀ f, rec.read K (f + 1) h buf = readLoop K rec f h2 b2 tr2) := by
  by_cases h0 : buf.length = 0
  · have : buf = [] := List.length_eq_zero.mp h0
    subst this
    exact Or.inl ⟨⟨.ok, [], h, []⟩, by simp, fun f => readLoop_nil K rec (f + 1) h []⟩
  by_cases h8 : buf.length < 8
  · exact Or.inl ⟨_, by simp, fun f => read_truncated_header K rec f h buf (by omega) h8⟩
  by_cases htyp : get32 K.order ((buf.drop 4).take 4) = K.g_mark_block
  swap
  · exact Or.inl ⟨_, by simp, fun f => readLoop_missing_marker K rec f h buf [] (by omega) htyp⟩
  by_cases h16 : buf.length < 16
  · exact Or.inl ⟨_, by simp,
      fun f => read_truncated_subheader K rec f h buf (by omega) h16 htyp⟩
  by_cases hshort : buf.length - 16 < align4 (get32 K.order ((buf.drop 12).take 4))
  · exact Or.inl ⟨_, by simp, fun f => read_truncated_name K rec f h buf (by omega) htyp hshort⟩
  by_cases hwrap : align4 (get32 K.order ((buf.drop 12).take 4)) <
      get32 K.order ((buf.drop 12).take 4)
  · exact Or.inl ⟨_, by simp,
      fun f => read_name_panic K rec f h buf (by omega) htyp (by omega) hwrap⟩
  cases hlk : rec.lookup ((buf.drop 16).take (get32 K.order ((buf.drop 12).take 4))) with
  | none =>
    exact Or.inl ⟨_, by simp,
      fun f => read_unknown K rec f h buf htyp (by omega) (by omega) hlk⟩
  | some blk =>
    have hstep := fun f => read_known K rec f h buf _ blk rfl htyp (by omega) (by omega) hlk
    have hmem := lookup_mem _ _ _ hlk
    have hle := hun _ blk hmem (h blk.ref)
      (buf.drop (16 + align4 (get32 K.order ((buf.drop 12).take 4))))
    rcases hu : blk.unmarshal (h blk.ref)
        (buf.drop (16 + align4 (get32 K.order ((buf.drop 12).take 4)))) with ⟨_ | e, s, b4⟩
    · rw [hu] at hle
      simp only [hu] at hstep
      simp only [List.length_drop] at hle
      by_cases hb : b4.length > 0
      · simp only [hb, if_true] at hstep
        by_cases hi : bytesIndex b4 (g_mark_block_b K) > 0
        · simp only [hi, if_true] at hstep
          cases hn : bufNext b4 (bytesIndex b4 (g_mark_block_b K) - 8) with
          | none =>
            simp only [hn] at hstep
            exact Or.inl ⟨_, by simp, hstep⟩
          | some b5 =>
            simp only [hn] at hstep
            have := bufNext_length_le _ _ _ hn
            exact Or.inr ⟨_, b5, _, by omega, hstep⟩
        · simp only [hi, if_false] at hstep
          exact Or.inl ⟨_, by simp, hstep⟩
      · simp only [hb, if_false] at hstep
        exact Or.inl ⟨_, by simp, hstep⟩
    · simp only [hu] at hstep
      exact Or.inl ⟨_, by simp, hstep⟩

/-- The read loop returns `nil` only with an empty buffer. -/
theorem readLoop_ok_nil {σ : Type} (K : Consts) (rec : Record σ) :
    ∀ (fuel : Nat) (h : Heap σ) (buf : List Byte) (tr : List Event),
      (readLoop K rec fuel h buf tr).status = .ok → (readLoop K rec fuel h buf tr).buf = [] := by
  intro fuel
  induction fuel with
  | zero =>
    intro h buf tr
    unfold readLoop
    split
    · simp
    · rename_i hb
      intro _
      dsimp only
      exact List.length_eq_zero.mp (by omega)
  | succ n ih =>
    intro h buf tr
    unfold readLoop
    simp only [copyN, bufNext_length]
    repeat' split
    all_goals first
      | exact ih _ _ _
      | (intro _; dsimp only; exact List.length_eq_zero.mp (by omega))
      | (intro hs; exact absurd hs (by simp))

/-- With fuel for one iteration per 16 bytes, the read loop ends. -/
theorem read_terminates {σ : Type} (K : Consts) (rec : Record σ)
    (hun : ∀ k blk, (k, blk) ∈ rec.blocks →
      ∀ s b, (blk.unmarshal s b).2.2.length ≤ b.length) :
    ∀ (fuel : Nat) (h : Heap σ) (buf : List Byte), buf.length < 16 * fuel →
      (rec.read K fuel h buf).status ≠ .running := by
  intro fuel
  induction fuel with
  | zero => intro h buf hlt; omega
  | succ n ih =>
    intro h buf hlt
    rcases read_iteration K rec h buf hun with ⟨r, hr, hall⟩ | ⟨h2, b2, tr2, hlen, hall⟩
    · rw [hall n]; exact hr
    · rw [hall n, readLoop_shift]
      exact ih h2 b2 (by omega)

/-- C19: when no connected block's `UnmarshalBinary` leaves the buffer longer
than it found it, `Record.read` terminates: with fuel for one iteration per 16
bytes of input the loop has ended (by a return or by a panic); when it returns
without error the buffer is empty; and every iteration either ends the call,
with a result that does not depend on the fuel left, or goes on with at least
16 bytes fewer (the header and the subheader it consumed). -/
theorem C19_read_terminates {σ : Type} (K : Consts) (rec : Record σ) (fuel : Nat)
    (h : Heap σ) (buf : List Byte)
    (hun : ∀ k blk, (k, blk) ∈ rec.blocks →
      ∀ s b, (blk.unmarshal s b).2.2.length ≤ b.length)
    (hfuel : buf.length < 16 * fuel) :
    (rec.read K fuel h buf).status ≠ .running ∧
    ((rec.read K fuel h buf).status ≠ .ok ∨ (rec.read K fuel h buf).buf = []) ∧
    (∀ (h1 : Heap σ) (b1 : List Byte) (tr1 : List Event),
      (∃ r : ReadResult σ, r.status ≠ .running ∧
        ∀ f, readLoop K rec (f + 1) h1 b1 tr1 = r) ∨
      (∃ h2 b2 tr2, b2.length + 16 ≤ b1.length ∧
        ∀ f, readLoop K rec (f + 1) h1 b1 tr1 = readLoop K rec f h2 b2 tr2)) := by
  refine ⟨read_terminates K rec hun fuel h buf hfuel, ?_, ?_⟩
  · by_cases hs : (rec.read K fuel h buf).status = .ok
    · exact Or.inr (readLoop_ok_nil K rec fuel h buf [] hs)
    · exact Or.inl hs
  · intro h1 b1 tr1
    rcases read_iteration K rec h1 b1 hun with ⟨r, hr, hall⟩ | ⟨h2, b2, tr2, hlen, hall⟩
    · refine Or.inl ⟨⟨r.status, r.buf, r.heap, tr1 ++ r.trace⟩, hr, fun f => ?_⟩
      rw [readLoop_shift, hall f]
    · refine Or.inr ⟨h2, b2, tr1 ++ tr2, hlen, fun f => ?_⟩
      rw [readLoop_shift, hall f, readLoop_append]

/-- Witness of C19: the 21-byte envelope of `"a"` read by `recA` with fuel 2. -/
theorem C19_read_terminates_witness :
    (recA.read hepConsts 2 heapZ
      [0, 0, 0, 21, 222, 173, 190, 239, 0, 0, 0, 0, 0, 0, 0, 1, 97, 0, 0, 0, 7]).status ≠
      .running ∧
    ((recA.read hepConsts 2 heapZ
      [0, 0, 0, 21, 222, 173, 190, 239, 0, 0, 0, 0, 0, 0, 0, 1, 97, 0, 0, 0, 7]).status ≠ .ok ∨
     (recA.read hepConsts 2 heapZ
      [0, 0, 0, 21, 222, 173, 190, 239, 0, 0, 0, 0, 0, 0, 0, 1, 97, 0, 0, 0, 7]).buf = []) ∧
    (∀ (h1 : Heap Byte) (b1 : List Byte) (tr1 : List Event),
      (∃ r : ReadResult Byte, r.status ≠ .running ∧
        ∀ f, readLoop hepConsts recA (f + 1) h1 b1 tr1 = r) ∨
      (∃ h2 b2 tr2, b2.length + 16 ≤ b1.length ∧
        ∀ f, readLoop hepConsts recA (f + 1) h1 b1 tr1 = readLoop hepConsts recA f h2 b2 tr2)) :=
  C19_read_terminates hepConsts recA 2 heapZ
    [0, 0, 0, 21, 222, 173, 190, 239, 0, 0, 0, 0, 0, 0, 0, 1, 97, 0, 0, 0, 7]
    (by
      intro k blk hmem s b
      simp only [recA, List.mem_singleton, Prod.mk.injEq] at hmem
      obtain ⟨_, rfl⟩ := hmem
      cases b with
      | nil => simp [blkA, byteBlock]
      | cons x t => simp [blkA, byteBlock])
    (by decide)

/-! ## What the read loop touches -/

/-- What the reads of an iteration have decoded when the name is looked up. -/
theorem decoded_at (o : ByteOrder) (mark : Nat) (P : List Byte → Str → List Byte → Prop)
    (hP : ∀ env : List Byte, 16 ≤ env.length → get32 o ((env.drop 4).take 4) = mark →
      align4 (get32 o ((env.drop 12).take 4)) ≤ env.length - 16 →
      P env (((env.drop 16).take (align4 (get32 o ((env.drop 12).take 4)))).take
          (get32 o ((env.drop 12).take 4)))
        ((env.drop 16).drop (align4 (get32 o ((env.drop 12).take 4)))))
    (buf buf1 buf2 cbuf buf3 : List Byte)
    (hdr : blockHeader) (data : blockData)
    (h1 : breadHeader o buf = .ok (hdr, buf1)) (ht : ¬ hdr.Typ ≠ mark)
    (h2 : breadData o buf1 = .ok (data, buf2))
    (h3 : (List.take (align4 data.NameLen) buf2, List.drop (align4 data.NameLen) buf2,
      if buf2.length < align4 data.NameLen then some Err.EOF else none) = (cbuf, buf3, none)) :
    P buf (List.take data.NameLen cbuf) buf3 ∧ buf3 <:+ buf := by
  unfold breadHeader at h1
  unfold breadData at h2
  split at h1
  · cases h1
  · rename_i hb
    injection h1 with h1
    injection h1 with hh hb1
    subst hb1
    split at h2
    · cases h2
    · rename_i hb2
      injection h2 with h2
      injection h2 with hd hb2'
      subst hb2'
      rw [List.length_drop] at hb2
      simp only [Prod.mk.injEq] at h3
      obtain ⟨hc, h3b, h3c⟩ := h3
      have hN : data.NameLen = get32 o ((buf.drop 12).take 4) := by
        rw [← hd]; simp [List.drop_drop]
      have hlen : align4 data.NameLen ≤ buf.length - 16 := by
        by_cases hlt : (List.drop 8 (List.drop 8 buf)).length < align4 data.NameLen
        · rw [if_pos hlt] at h3c
          cases h3c
        · simp only [List.length_drop] at hlt
          omega
      have hmark : get32 o ((buf.drop 4).take 4) = mark := by
        rw [← hh] at ht
        simpa using ht
      have key := hP buf (by omega) hmark (by rw [← hN]; exact hlen)
      rw [← hN] at key
      have e1 : List.take data.NameLen cbuf =
          ((buf.drop 16).take (align4 data.NameLen)).take data.NameLen := by
        rw [← hc]
        simp [List.drop_drop]
      have e2 : buf3 = (buf.drop 16).drop (align4 data.NameLen) := by
        rw [← h3b]
        simp [List.drop_drop]
      rw [e1, e2]
      exact ⟨key, (List.drop_suffix _ _).trans (List.drop_suffix _ _)⟩

theorem unmarshal_inv_lookup {σ : Type} (rec : Record σ) (tr : List Event) (nm : Str)
    (rest : List Byte)
    (hP : ∀ name input, Event.unmarshal name input ∈ tr →
      Event.lookup name input ∈ tr ∧ ∃ blk, rec.lookup name = some blk) :
    ∀ name input, Event.unmarshal name input ∈ tr ++ [Event.lookup nm rest] →
      Event.lookup name input ∈ tr ++ [Event.lookup nm rest] ∧
        ∃ blk, rec.lookup name = some blk := by
  intro name input hm
  simp only [List.mem_append, List.mem_singleton, reduceCtorEq, or_false] at hm
  obtain ⟨h1, h2⟩ := hP name input hm
  exact ⟨List.mem_append_left _ h1, h2⟩

theorem unmarshal_inv_unmarshal {σ : Type} (rec : Record σ) (tr : List Event) (nm : Str)
    (rest : List Byte) (blk : Block σ) (hk : rec.lookup nm = some blk)
    (hP : ∀ name input, Event.unmarshal name input ∈ tr →
      Event.lookup name input ∈ tr ∧ ∃ blk, rec.lookup name = some blk) :
    ∀ name input,
      Event.unmarshal name input ∈ tr ++ [Event.lookup nm rest] ++ [Event.unmarshal nm rest] →
      Event.lookup name input ∈ tr ++ [Event.lookup nm rest] ++ [Event.unmarshal nm rest] ∧
        ∃ blk, rec.lookup name = some blk := by
  intro name input hm
  simp only [List.mem_append, List.mem_singleton, reduceCtorEq, or_false,
    Event.unmarshal.injEq] at hm
  rcases hm with hm | ⟨rfl, rfl⟩
  · obtain ⟨h1, h2⟩ := hP name input hm
    exact ⟨List.mem_append_left _ (List.mem_append_left _ h1), h2⟩
  · exact ⟨List.mem_append_left _ (List.mem_append_right _ (List.mem_singleton.mpr rfl)),
      ⟨blk, hk⟩⟩

/-- `UnmarshalBinary` is called only on the block bound to a name that was
just looked up, with the buffer as it stood at the lookup. -/
theorem readLoop_unmarshal_inv {σ : Type} (K : Consts) (rec : Record σ) :
    ∀ (fuel : Nat) (h : Heap σ) (buf : List Byte) (tr : List Event),
      (∀ name input, Event.unmarshal name input ∈ tr →
        Event.lookup name input ∈ tr ∧ ∃ blk, rec.lookup name = some blk) →
      ∀ name input, Event.unmarshal name input ∈ (readLoop K rec fuel h buf tr).trace →
        Event.lookup name input ∈ (readLoop K rec fuel h buf tr).trace ∧
          ∃ blk, rec.lookup name = some blk := by
  intro fuel
  induction fuel with
  | zero =>
    intro h buf tr hP
    unfold readLoop
    split <;> exact hP
  | succ n ih =>
    intro h buf tr hP
    unfold readLoop
    simp only [copyN, bufNext_length]
    repeat' split
    all_goals first
      | exact hP
      | exact unmarshal_inv_lookup rec tr _ _ hP
      | exact unmarshal_inv_unmarshal rec tr _ _ _ (by assumption) hP
      | exact ih _ _ _ hP
      | exact ih _ _ _ (unmarshal_inv_lookup rec tr _ _ hP)
      | exact ih _ _ _ (unmarshal_inv_unmarshal rec tr _ _ _ (by assumption) hP)

/-- On an empty buffer the loop ends without a further event. -/
theorem readLoop_empty_trace {σ : Type} (K : Consts) (rec : Record σ) (b : List Byte)
    (hb : ¬ b.length > 0) (fuel : Nat) (h : Heap σ) (tr : List Event) :
    (readLoop K rec fuel h b tr).trace = tr := by
  have : b = [] := List.length_eq_zero.mp (by omega)
  rw [this, readLoop_nil]

/-- After the resynchronisation step has discarded `idx - 8` bytes the loop
makes no further event: the marker is the third word of what is left, not
the second, so the next iteration (if any) returns `ErrRecordNoBlockMarker`. -/
theorem resync_no_events {σ : Type} (K : Consts) (rec : Record σ) (rest b5 : List Byte)
    (hpos : bytesIndex rest (g_mark_block_b K) > 0)
    (hn : bufNext rest (bytesIndex rest (g_mark_block_b K) - 8) = some b5)
    (fuel : Nat) (h : Heap σ) (tr : List Event) :
    (readLoop K rec fuel h b5 tr).trace = tr := by
  have h8 : 8 ≤ bytesIndex rest (g_mark_block_b K) := by
    by_contra hlt
    rw [bufNext_neg _ _ (by omega)] at hn
    cases hn
  cases fuel with
  | zero =>
    unfold readLoop
    split <;> rfl
  | succ m =>
    obtain ⟨n, _, _, _, hnext, hloop⟩ := resync_misaligned K rec m h rest tr h8
    rw [hnext] at hn
    injection hn with hn
    rw [← hn, hloop]

/-- Every name `Record.read` looks up is decoded from the envelope at the
front of the input buffer: a header with the marker, a subheader and the
complete padded name field. -/
theorem readLoop_lookup_first {σ : Type} (K : Consts) (rec : Record σ) (fuel : Nat)
    (h : Heap σ) (buf : List Byte) :
    ∀ name rest, Event.lookup name rest ∈ (readLoop K rec fuel h buf []).trace →
      16 ≤ buf.length ∧
      get32 K.order ((buf.drop 4).take 4) = K.g_mark_block ∧
      align4 (get32 K.order ((buf.drop 12).take 4)) ≤ buf.length - 16 ∧
      name = ((buf.drop 16).take (align4 (get32 K.order ((buf.drop 12).take 4)))).take
        (get32 K.order ((buf.drop 12).take 4)) ∧
      rest = (buf.drop 16).drop (align4 (get32 K.order ((buf.drop 12).take 4))) := by
  cases fuel with
  | zero =>
    intro name rest hm
    unfold readLoop at hm
    split at hm <;> simp at hm
  | succ n =>
    unfold readLoop
    simp only [copyN, bufNext_length, readLoop_nil]
    repeat' split
    all_goals first
      | (intro name rest hm
         simp at hm
         done)
      | (have hdec := decoded_at K.order K.g_mark_block
          (fun env name rest => 16 ≤ env.length ∧
            get32 K.order ((env.drop 4).take 4) = K.g_mark_block ∧
            align4 (get32 K.order ((env.drop 12).take 4)) ≤ env.length - 16 ∧
            name = ((env.drop 16).take (align4 (get32 K.order ((env.drop 12).take 4)))).take
              (get32 K.order ((env.drop 12).take 4)) ∧
            rest = (env.drop 16).drop (align4 (get32 K.order ((env.drop 12).take 4))))
          (fun env h1 h2 h3 => ⟨h1, h2, h3, rfl, rfl⟩) buf _ _ _ _ _ _
          (by assumption) (by assumption) (by assumption) (by assumption)
         intro name rest hm
         first
           | rw [resync_no_events K rec _ _ (by assumption) (by assumption)] at hm
           | rw [readLoop_empty_trace K rec _ (by assumption)] at hm
           | skip
         simp only [List.nil_append, List.cons_append, List.mem_cons, List.mem_singleton,
           Event.lookup.injEq, reduceCtorEq, or_false, List.not_mem_nil] at hm
         obtain ⟨rfl, rfl⟩ := hm
         exact hdec.1)

/-- The read loop hands its receiver on unchanged, and does otherwise what
`readLoop` does. -/
theorem readLoopRecv_eq {σ : Type} (K : Consts) (rec : Record σ) :
    ∀ (fuel : Nat) (h : Heap σ) (buf : List Byte) (tr : List Event),
      readLoopRecv K fuel rec h buf tr = (rec, readLoop K rec fuel h buf tr) := by
  intro fuel
  induction fuel with
  | zero =>
    intro h buf tr
    unfold readLoopRecv readLoop
    split <;> rfl
  | succ n ih =>
    intro h buf tr
    unfold readLoopRecv readLoop
    simp only [ih]
    by_cases h0 : buf.length > 0
    swap
    · simp only [h0, if_false]
    simp only [h0, if_true]
    cases hh : breadHeader K.order buf with
    | error e => rfl
    | ok p =>
      obtain ⟨hdr, buf1⟩ := p
      dsimp only
      by_cases ht : hdr.Typ ≠ K.g_mark_block
      · rw [if_pos ht, if_pos ht]
      rw [if_neg ht, if_neg ht]
      cases hd : breadData K.order buf1 with
      | error e => rfl
      | ok q =>
        obtain ⟨data, buf2⟩ := q
        dsimp only
        rcases hc : copyN buf2 (align4 data.NameLen) with ⟨cbuf, buf3, _ | e⟩
        swap
        · rfl
        dsimp only
        by_cases hl : cbuf.length ≠ align4 data.NameLen
        · rw [if_pos hl, if_pos hl]
        rw [if_neg hl, if_neg hl]
        by_cases hw : cbuf.length < data.NameLen
        · simp only [hw, if_true]
        simp only [hw, if_false]
        cases hk : rec.lookup (List.take data.NameLen cbuf) with
        | none =>
          dsimp only
          cases bufNext buf3 buf3.length <;> rfl
        | some blk =>
          dsimp only
          rcases hu : blk.unmarshal (h blk.ref) buf3 with ⟨_ | e, s, buf4⟩
          swap
          · rfl
          dsimp only
          by_cases hb : buf4.length > 0
          swap
          · simp only [hb, if_false]
          simp only [hb, if_true]
          by_cases hi : bytesIndex buf4 (g_mark_block_b K) > 0
          · simp only [hi, if_true]
            cases bufNext buf4 ((bytesIndex buf4 (g_mark_block_b K) : Int) - 8) <;> rfl
          · simp only [hi, if_false]
            cases bufNext buf4 (buf4.length : Int) <;> rfl

/-- A payload that no block of the record points to is not touched. -/
theorem readLoop_heap_frame {σ : Type} (K : Consts) (rec : Record σ) (r : Nat)
    (hr : ∀ k blk, (k, blk) ∈ rec.blocks → blk.ref ≠ r) :
    ∀ (fuel : Nat) (h : Heap σ) (buf : List Byte) (tr : List Event),
      (readLoop K rec fuel h buf tr).heap r = h r := by
  intro fuel
  induction fuel with
  | zero =>
    intro h buf tr
    unfold readLoop
    split <;> rfl
  | succ n ih =>
    intro h buf tr
    unfold readLoop
    simp only [copyN, bufNext_length]
    repeat' split
    all_goals first
      | rfl
      | exact ih _ _ _
      | (have hmem := lookup_mem _ _ _ (by assumption)
         have hne := hr _ _ hmem
         first
           | (rw [ih]; exact Function.update_noteq hne.symm _ _)
           | exact Function.update_noteq hne.symm _ _)

/-- C20: reading an empty buffer returns no error, with no event and the
payloads untouched. `Record.read` calls `UnmarshalBinary` only on a block bound
to a name it has just looked up, handing it the buffer as it stood at the
lookup; and every name it looks up is decoded from the envelope at the front
of the input buffer `buf`: `buf` holds a header with the marker, a subheader
and the complete padded name field, the name is the first `NameLen` bytes of
that field and the buffer handed on is what follows the field. A payload that
no block of the record points to is not touched. The record after the call is
the record before it, whatever the outcome: `name`, `unpack`, `options` and
the bindings are unchanged. -/
theorem C20_read_frame {σ : Type} (K : Consts) (rec : Record σ) (fuel : Nat)
    (h : Heap σ) (buf : List Byte) :
    rec.read K fuel h [] = ⟨.ok, [], h, []⟩ ∧
    (∀ name input, Event.unmarshal name input ∈ (rec.read K fuel h buf).trace →
      Event.lookup name input ∈ (rec.read K fuel h buf).trace ∧
        ∃ blk, rec.lookup name = some blk) ∧
    (∀ name rest, Event.lookup name rest ∈ (rec.read K fuel h buf).trace →
      16 ≤ buf.length ∧
      get32 K.order ((buf.drop 4).take 4) = K.g_mark_block ∧
      align4 (get32 K.order ((buf.drop 12).take 4)) ≤ buf.length - 16 ∧
      name = ((buf.drop 16).take (align4 (get32 K.order ((buf.drop 12).take 4)))).take
        (get32 K.order ((buf.drop 12).take 4)) ∧
      rest = (buf.drop 16).drop (align4 (get32 K.order ((buf.drop 12).take 4)))) ∧
    (∀ r, (∀ k blk, (k, blk) ∈ rec.blocks → blk.ref ≠ r) →
      (rec.read K fuel h buf).heap r = h r) ∧
    (rec.readRecv K fuel h buf).1 = rec ∧
    (rec.readRecv K fuel h buf).1.name = rec.name ∧
    (rec.readRecv K fuel h buf).1.unpack = rec.unpack ∧
    (rec.readRecv K fuel h buf).1.options = rec.options ∧
    (rec.readRecv K fuel h buf).1.blocks = rec.blocks ∧
    (rec.readRecv K fuel h buf).2 = rec.read K fuel h buf := by
  have hrecv : rec.readRecv K fuel h buf = (rec, rec.read K fuel h buf) := by
    unfold Record.readRecv Record.read
    rw [readLoopRecv_eq]
  refine ⟨readLoop_nil K rec fuel h [], ?_, ?_, ?_, ?_, ?_, ?_, ?_, ?_, ?_⟩
  · exact readLoop_unmarshal_inv K rec fuel h buf [] (by simp)
  · exact readLoop_lookup_first K rec fuel h buf
  · intro r hr
    exact readLoop_heap_frame K rec r hr fuel h buf []
  all_goals rw [hrecv]

end sio
